import Mathlib

/-!
# Verification of the rust-http-server core

A shallow embedding of the core of `rust-http-server` (request parsing, path
sandbox, range reader, response writers, framing arbiter, compression
middleware) together with proofs of the specified properties.

Modelling conventions:
* Rust byte strings (`&[u8]`, `String`, `Vec<u8>`) are `List Nat`, each
  element a byte value.  The helper `bs` turns an ASCII Lean string literal
  into such a byte list.
* `std::collections::HashMap<String, String>` is an association list
  `List (List Nat × List Nat)`; `HashMap::insert` is replace-on-exact-key,
  iteration order is the list order (a determinization of the map's
  arbitrary order — no settled claim depends on the iteration order).
* Filesystem access (`fs::canonicalize`, `Path::exists`) is a parameter
  `Fs` supplied to the functions that perform it, so theorems quantify over
  every possible filesystem behaviour.
* Fallible Rust functions returning `Result` become `Except`; functions
  whose only effect is writing bytes to the `TcpStream` return the bytes
  (or the structured `Rendered` response) on success; every error exit in
  the embedded sources occurs before the first byte is written to the
  stream, so an `Except.error` result means nothing was written.
-/

/-- Byte list of an ASCII string literal. -/
def bs (s : String) : List Nat := s.data.map Char.toNat

/-- ASCII lower-casing of one byte (`u8::to_ascii_lowercase`). -/
def lowerByte (b : Nat) : Nat := if 65 ≤ b ∧ b ≤ 90 then b + 32 else b

/-- Lower-cased byte string (`str::to_ascii_lowercase`). -/
def lowerBytes (l : List Nat) : List Nat := l.map lowerByte

/-- Model of `str::eq_ignore_ascii_case`. -/
def eqIgnoreCase (a b : List Nat) : Bool := lowerBytes a == lowerBytes b

/-- Rust `char::is_whitespace` restricted to ASCII: HT, LF, VT, FF, CR, SP
(the only whitespace that occurs in the byte strings handled here). -/
def isWsByte (b : Nat) : Bool := b == 9 || b == 10 || b == 11 || b == 12 || b == 13 || b == 32

/-- Model of `str::trim` on a byte string (ASCII whitespace). -/
def trimB (l : List Nat) : List Nat :=
  ((l.dropWhile isWsByte).reverse.dropWhile isWsByte).reverse

/-- Model of `usize::from_str`: optional leading `+`, at least one ASCII digit,
value below `2^64` (64-bit `usize`). -/
def parseUsize (l : List Nat) : Option Nat :=
  let digits := match l with
    | 43 :: rest => rest
    | _ => l
  if digits ≠ [] ∧ digits.all (fun b => 48 ≤ b ∧ b ≤ 57) then
    let v := digits.foldl (fun acc b => acc * 10 + (b - 48)) 0
    if v < 2 ^ 64 then some v else none
  else none

/-- Decimal rendering of a `usize` (`ToString`), as a byte string. -/
def natBytes (n : Nat) : List Nat := bs (toString n)

/-! ## Path sandbox (`src/http/server.rs`) -/

namespace Server

/-- One hex digit, as `char::to_digit(16)` applied to a byte read as a
character: `0-9`, `a-f`, `A-F`. -/
def hexDigit (b : Nat) : Option Nat :=
  if 48 ≤ b ∧ b ≤ 57 then some (b - 48)
  else if 97 ≤ b ∧ b ≤ 102 then some (b - 87)
  else if 65 ≤ b ∧ b ≤ 70 then some (b - 55)
  else none

/-- The byte-producing loop of `percent_decode`: a `%` must be followed by
two hex digits and becomes the byte they denote; every other byte is
copied. -/
def pdRaw : List Nat → Option (List Nat)
  | [] => some []
  | 37 :: h :: l :: r =>
    match hexDigit h, hexDigit l with
    | some hn, some ln => (pdRaw r).map ((hn * 16 + ln) :: ·)
    | _, _ => none
  | 37 :: _ => none
  | b :: rest => (pdRaw rest).map (b :: ·)

/-- Is a continuation byte `0x80..=0xBF`. -/
def isCont (b : Nat) : Bool := 128 ≤ b ∧ b ≤ 191

/-- Strict UTF-8 validity of a byte sequence, as checked by
`String::from_utf8` (rejects overlong forms, surrogates, values above
`U+10FFFF`). -/
def utf8Valid : List Nat → Bool
  | [] => true
  | b :: rest =>
    if b < 128 then utf8Valid rest
    else if 194 ≤ b ∧ b ≤ 223 then
      match rest with
      | c1 :: r => isCont c1 && utf8Valid r
      | _ => false
    else if b == 224 then
      match rest with
      | c1 :: c2 :: r => (160 ≤ c1 ∧ c1 ≤ 191 : Bool) && isCont c2 && utf8Valid r
      | _ => false
    else if (225 ≤ b ∧ b ≤ 236) ∨ (238 ≤ b ∧ b ≤ 239) then
      match rest with
      | c1 :: c2 :: r => isCont c1 && isCont c2 && utf8Valid r
      | _ => false
    else if b == 237 then
      match rest with
      | c1 :: c2 :: r => (128 ≤ c1 ∧ c1 ≤ 159 : Bool) && isCont c2 && utf8Valid r
      | _ => false
    else if b == 240 then
      match rest with
      | c1 :: c2 :: c3 :: r =>
        (144 ≤ c1 ∧ c1 ≤ 191 : Bool) && isCont c2 && isCont c3 && utf8Valid r
      | _ => false
    else if 241 ≤ b ∧ b ≤ 243 then
      match rest with
      | c1 :: c2 :: c3 :: r => isCont c1 && isCont c2 && isCont c3 && utf8Valid r
      | _ => false
    else if b == 244 then
      match rest with
      | c1 :: c2 :: c3 :: r =>
        (128 ≤ c1 ∧ c1 ≤ 143 : Bool) && isCont c2 && isCont c3 && utf8Valid r
      | _ => false
    else false

/-- Model of `percent_decode` from `server.rs`: decode `%`-escapes, then require the
result to be valid UTF-8 (`String::from_utf8`). -/
def percentDecode (input : List Nat) : Option (List Nat) := do
  let raw ← pdRaw input
  if utf8Valid raw then some raw else none

/-- A component of a `std::path::Path` (Unix: no `Prefix` components). -/
inductive PathComp where
  | rootDir
  | curDir
  | parentDir
  | normal (seg : List Nat)
deriving DecidableEq, Repr

instance : BEq PathComp := ⟨fun a b => decide (a = b)⟩

/-- A path, as its list of components. -/
abbrev Path := List PathComp

/-- The non-empty `/`-separated segments of a byte string. -/
def rawSegs (d : List Nat) : List (List Nat) :=
  (d.splitOn 47).filter (· ≠ [])

/-- Component normalization applied by `Path::components` to every segment
after the first: `.` segments are normalized away, `..` becomes
`ParentDir`. -/
def normSegs (segs : List (List Nat)) : List PathComp :=
  (segs.filter (· ≠ [46])).map (fun s => if s = [46, 46] then .parentDir else .normal s)

/-- Model of `Path::components` of a byte string: a leading `/` yields `RootDir`; a
leading `.` segment of a relative path is kept as `CurDir`; interior `.`
segments are normalized away; `..` segments become `ParentDir`. -/
def componentsOf (d : List Nat) : Path :=
  if d.head? = some 47 then .rootDir :: normSegs (rawSegs d)
  else
    match rawSegs d with
    | s :: rest => if s = [46] then .curDir :: normSegs rest else normSegs (s :: rest)
    | [] => []

/-- Model of `Path::file_name`: the last component when it is a normal segment. -/
def fileNameOf (d : List Nat) : Option (List Nat) :=
  match (componentsOf d).getLast? with
  | some (.normal s) => some s
  | _ => none

/-- Model of `char::is_ascii_control`: `0x00..=0x1F` or `0x7F` (agrees byte-wise with
the char-wise check on valid UTF-8). -/
def isCtlByte (b : Nat) : Bool := b < 32 || b == 127

/-- The Windows-invalid characters rejected by `resolve_path`:
`< > : " \ | ? *`. -/
def isWinInvalid (b : Nat) : Bool :=
  b == 60 || b == 62 || b == 58 || b == 34 || b == 92 || b == 124 || b == 63 || b == 42

/-- The raw-path scan for percent-encoded separators: any 3-byte window
equal to `%2F`, `%2f`, `%5C` or `%5c`. -/
def hasEncodedSep : List Nat → Bool
  | 37 :: b :: c :: rest =>
    (b == 50 && (c == 70 || c == 102)) || (b == 53 && (c == 67 || c == 99))
      || hasEncodedSep (b :: c :: rest)
  | _ :: rest => hasEncodedSep rest
  | [] => false

/-- The `RESERVED_NAMES` list from `server.rs`. -/
def reservedNames : List (List Nat) :=
  [bs "con", bs "prn", bs "aux", bs "nul",
   bs "com1", bs "com2", bs "com3", bs "com4", bs "com5", bs "com6", bs "com7",
   bs "com8", bs "com9",
   bs "lpt1", bs "lpt2", bs "lpt3", bs "lpt4", bs "lpt5", bs "lpt6", bs "lpt7",
   bs "lpt8", bs "lpt9"]

/-- Access intent for path resolution (`AccessIntent`). -/
inductive AccessIntent where
  | Read
  | Write
deriving DecidableEq, Repr

/-- Errors of path resolution (`ResolveError`). -/
inductive ResolveError where
  | Forbidden
  | NotFound
  | Invalid
  | Io
deriving DecidableEq, Repr

/-- Error of `fs::canonicalize`, as discriminated by `resolve_path`
(`ErrorKind::NotFound` versus anything else). -/
inductive CanonErr where
  | notFound
  | other
deriving DecidableEq, Repr

/-- Result of path resolution (`ResolvedPath`). -/
structure ResolvedPath where
  path : Path
  «exists» : Bool
deriving DecidableEq, Repr

/-- The filesystem, abstracted: `fs::canonicalize` and `Path::exists`.
Theorems quantify over every `Fs`, so they hold regardless of symlinks
and of which files exist. -/
structure Fs where
  canonicalize : Path → Except CanonErr Path
  pathExists : Path → Bool

/-- Model of `ServerContext`: the configured root and its canonical form (the
request counter plays no role in path resolution). -/
structure ServerContext where
  rootPath : Path
  canonPath : Path

/-- The candidate `root_path.join(&decoded)`: the path path handed to
canonicalization. -/
def candidateOf (ctx : ServerContext) (decoded : List Nat) : Path :=
  ctx.rootPath ++ componentsOf decoded

/-- The syntactic phase of `ServerContext::resolve_path` (`server.rs`
lines 104–217): every check before the first filesystem access, in source
order.  On success it yields the decoded byte string and the terminal
filename component. -/
def syntacticResolve (reqPath : List Nat) : Except ResolveError (List Nat × List Nat) :=
  match percentDecode reqPath with
  | none => .error .Invalid
  | some decoded =>
    if decoded = [] then .error .Invalid
    else if decoded.any isCtlByte then .error .Invalid
    else if decoded.any isWinInvalid then .error .Invalid
    else if (componentsOf decoded).any (fun c => c = .rootDir) then .error .Forbidden
    else if (componentsOf decoded).any (fun c => c = .curDir ∨ c = .parentDir) then
      .error .Forbidden
    else if reqPath.contains 92 then .error .Invalid
    else if hasEncodedSep reqPath then .error .Invalid
    else
      match fileNameOf decoded with
      | none => .error .Invalid
      | some lastName =>
        if lastName.getLast? = some 46 ∨ lastName.getLast? = some 32 then .error .Invalid
        else if reservedNames.contains (lowerBytes (lastName.takeWhile (· ≠ 46))) then
          .error .Invalid
        else .ok (decoded, lastName)

/-- Model of `ServerContext::resolve_path`: the syntactic phase, then per-intent
canonicalization and the containment check against the canonical root. -/
def resolvePath (fs : Fs) (ctx : ServerContext) (reqPath : List Nat)
    (intent : AccessIntent) : Except ResolveError ResolvedPath :=
  match syntacticResolve reqPath with
  | .error e => .error e
  | .ok (decoded, lastName) =>
    let candidate := candidateOf ctx decoded
    match intent with
    | .Read =>
      match fs.canonicalize candidate with
      | .error .notFound => .error .NotFound
      | .error .other => .error .Io
      | .ok canonCandidate =>
        if ¬ ctx.canonPath.isPrefixOf canonCandidate then .error .Forbidden
        else .ok ⟨canonCandidate, true⟩
    | .Write =>
      let parent := candidate.dropLast
      match fs.canonicalize parent with
      | .error .notFound => .error .NotFound
      | .error .other => .error .Io
      | .ok canonParent =>
        if ¬ ctx.canonPath.isPrefixOf canonParent then .error .Forbidden
        else .ok ⟨canonParent ++ [.normal lastName], fs.pathExists candidate⟩

end Server

/-! ## Response writers, framing arbiter (`src/http/writer/`) -/

namespace Writer

/-- HTTP versions (`src/http/request/types.rs`). -/
inductive HttpVersion where
  | http1_0
  | http1_1
deriving DecidableEq, Repr

/-- HTTP response status codes (`src/http/response/types.rs`). -/
inductive HttpStatusCode where
  | ok
  | created
  | noContent
  | partialContent
  | badRequest
  | forbidden
  | notFound
  | methodNotAllowed
  | internalServerError
  | notImplemented
deriving DecidableEq, Repr

/-- Display of `HttpVersion`. -/
def versionStr : HttpVersion → String
  | .http1_0 => "HTTP/1.0"
  | .http1_1 => "HTTP/1.1"

/-- Display of `HttpStatusCode` (code and reason phrase). -/
def statusStr : HttpStatusCode → String
  | .ok => "200 OK"
  | .notFound => "404 Not Found"
  | .badRequest => "400 Bad Request"
  | .methodNotAllowed => "405 Method Not Allowed"
  | .created => "201 Created"
  | .noContent => "204 No Content"
  | .partialContent => "206 Partial Content"
  | .internalServerError => "500 Internal Server Error"
  | .forbidden => "403 Forbidden"
  | .notImplemented => "501 Not Implemented"

/-- Bytes of the status line `format!("{} {}\r\n", version, status)`. -/
def statusLineBytes (version : HttpVersion) (status : HttpStatusCode) : List Nat :=
  bs (versionStr version) ++ [32] ++ bs (statusStr status) ++ [13, 10]

/-- A header map: association list of (name, value) byte strings. -/
abbrev Headers := List (List Nat × List Nat)

/-- Exact-key lookup (`HashMap::get` / `contains_key`). -/
def lookupH (hs : Headers) (k : List Nat) : Option (List Nat) :=
  (hs.find? (fun e => e.1 == k)).map (·.2)

/-- Case-insensitive lookup, `get_header_ci` from `standard.rs`. -/
def getHeaderCi (hs : Headers) (k : List Nat) : Option (List Nat) :=
  (hs.find? (fun e => eqIgnoreCase e.1 k)).map (·.2)

/-- Token membership test `contains_token_ci` from `standard.rs`: split the
value on commas, trim each token, compare case-insensitively. -/
def containsTokenCi (v token : List Nat) : Bool :=
  (v.splitOn 44).any (fun t => eqIgnoreCase (trimB t) token)

/-- Exact-key insert-or-replace (`HashMap::insert`). -/
def insertReplaceExact (hs : Headers) (k v : List Nat) : Headers :=
  hs.filter (fun e => e.1 ≠ k) ++ [(k, v)]

/-- Is an ASCII letter or digit (a word byte for title-casing). -/
def isWordByte (b : Nat) : Bool :=
  (48 ≤ b ∧ b ≤ 57) || (65 ≤ b ∧ b ≤ 90) || (97 ≤ b ∧ b ≤ 122)

/-- Capitalization of one word by the `titlecase` crate: a word already
containing an uppercase letter is preserved; otherwise its first letter is
upper-cased. -/
def capWord (w : List Nat) : List Nat :=
  if w.any (fun b => 65 ≤ b ∧ b ≤ 90) then w
  else
    match w with
    | [] => []
    | c :: rest => (if 97 ≤ c ∧ c ≤ 122 then c - 32 else c) :: rest

/-- Fueled word-by-word title-casing pass. -/
def titlecaseGo : Nat → List Nat → List Nat
  | 0, l => l
  | _ + 1, [] => []
  | fuel + 1, b :: rest =>
    if isWordByte b then
      capWord (b :: rest.takeWhile isWordByte) ++ titlecaseGo fuel (rest.dropWhile isWordByte)
    else b :: titlecaseGo fuel rest

/-- Model of the external `titlecase` crate's `Titlecase::titlecase` as used on
header names: capitalize each letter-run that has no uppercase letter,
leave runs containing uppercase letters untouched.  (The crate's
small-word list never fires on the header names this server handles; the
proofs use only that the function changes letter case at most, and that it
fixes already title-cased names.) -/
def titlecaseB (l : List Nat) : List Nat := titlecaseGo l.length l

/-- Writer state (`WriterState` in `src/http/writer/types.rs`). -/
inductive WriterState where
  | initial
  | statusWritten
  | headersOpen
  | headersClosed
  | bodyWritten
  | failed
deriving DecidableEq, Repr

/-- Writer errors (`WriterError`); `IoError` is not modelled since the
abstract stream accepts all writes. -/
inductive WErr where
  | invalidState (msg : String)
  | missingHeader (msg : String)
  | invalidHeader (msg : String)
  | contentLengthMismatch (declared actual : Nat)
deriving DecidableEq, Repr

/-- The buffered state shared by `HttpWriter` and `ChunkedWriter`: both hold
the status line, headers and body until `complete_write`. -/
structure WriterM where
  state : WriterState
  statusLine : Option (List Nat)
  headers : Headers
  body : Option (List Nat)
deriving DecidableEq, Repr

/-- A fresh writer (`HttpWriter::new` / `ChunkedWriter::new`). -/
def initWriter : WriterM := ⟨.initial, none, [], none⟩

/-- The fully checked response a successful `complete_write` emits:
status line bytes, final header map, and the held body. -/
structure Rendered where
  statusLine : List Nat
  headers : Headers
  body : Option (List Nat)
deriving DecidableEq, Repr

/-- Wire bytes of one header line `format!("{}: {}\r\n", key, value)`,
folded over the header map. -/
def headerBytes (hs : Headers) : List Nat :=
  hs.foldr (fun e acc => e.1 ++ bs ": " ++ e.2 ++ [13, 10] ++ acc) []

/-- Lowercase hex digits of a chunk size (`format!("{:x}", chunk_size)`). -/
def hexBytes (n : Nat) : List Nat := bs (String.mk (Nat.toDigits 16 n))

/-- One chunk as emitted by `ChunkedWriter::write_chunk`:
`hex(len) CRLF data CRLF`. -/
def chunkBytes (data : List Nat) : List Nat :=
  hexBytes data.length ++ [13, 10] ++ data ++ [13, 10]

/-- Wire bytes of a standard (Content-Length) response: status line, header
lines, blank line, body. -/
def renderStd (r : Rendered) : List Nat :=
  r.statusLine ++ headerBytes r.headers ++ [13, 10] ++ (r.body.getD [])

/-- Wire bytes of a chunked response: status line, header lines, blank
line, one chunk when a body is held, then the `0 CRLF CRLF` terminator. -/
def renderChunked (r : Rendered) : List Nat :=
  r.statusLine ++ headerBytes r.headers ++ [13, 10] ++
    (match r.body with
     | some b => chunkBytes b
     | none => []) ++ bs "0\r\n\r\n"

/-- Model of `write_status_line` (identical in `HttpWriter` and
`ChunkedWriter`): legal only in `Initial`. -/
def writeStatusLine (w : WriterM) (version : HttpVersion) (status : HttpStatusCode) :
    Except WErr WriterM :=
  if w.state ≠ .initial then
    .error (.invalidState "Can only write Status Line in Initial state")
  else
    .ok { w with statusLine := some (statusLineBytes version status), state := .statusWritten }

/-- Model of `write_header` (identical in both writers): legal in
`StatusWritten` or `HeadersOpen`; the key is title-cased and the insert
replaces any case-insensitive duplicate. -/
def writeHeader (w : WriterM) (k v : List Nat) : Except WErr WriterM :=
  if w.state ≠ .statusWritten ∧ w.state ≠ .headersOpen then
    .error (.invalidState "Can only write headers in StatusWritten or HeadersOpen state")
  else
    .ok { w with
      state := .headersOpen,
      headers := w.headers.filter (fun e => ¬ eqIgnoreCase e.1 k) ++ [(titlecaseB k, v)] }

/-- Model of `finish_headers` (identical in both writers). -/
def finishHeaders (w : WriterM) : Except WErr WriterM :=
  if w.state ≠ .headersOpen ∧ w.state ≠ .statusWritten then
    .error (.invalidState "Can only finish headers in HeadersOpen or StatusWritten state")
  else
    .ok { w with state := .headersClosed }

/-- Model of `HttpWriter::write_body`: stores the bytes, even when empty. -/
def writeBodyStd (w : WriterM) (body : List Nat) : Except WErr WriterM :=
  if w.state ≠ .headersClosed then
    .error (.invalidState "Can only write body in HeadersClosed state")
  else
    .ok { w with body := some body, state := .bodyWritten }

/-- Model of `ChunkedWriter::write_body`: stores the bytes only when
non-empty. -/
def writeBodyChunked (w : WriterM) (body : List Nat) : Except WErr WriterM :=
  if w.state ≠ .headersClosed then
    .error (.invalidState "Cannot write body in current state")
  else
    .ok { w with body := if body = [] then w.body else some body, state := .bodyWritten }

/-- Model of `HttpWriter::complete_write` (`standard.rs` lines 105-157): state
and status-line checks, then the Content-Length contract; every error
occurs before any byte reaches the stream. -/
def completeWriteStd (w : WriterM) : Except WErr Rendered :=
  if w.state ≠ .bodyWritten ∧ w.state ≠ .headersClosed then
    .error (.invalidState "Can only complete in BodyWritten state")
  else
    match w.statusLine with
    | none => .error (.invalidState "Status line must be written before completing")
    | some sl =>
      match lookupH w.headers (bs "Content-Length") with
      | some clv =>
        match parseUsize clv with
        | none => .error (.invalidHeader "Content-Length must be a valid number")
        | some declared =>
          let actual := (w.body.getD []).length
          if declared ≠ actual then .error (.contentLengthMismatch declared actual)
          else .ok ⟨sl, w.headers, w.body⟩
      | none => .error (.missingHeader "Content-Length header is required")

/-- Model of `ChunkedWriter::complete_write` (`chunked.rs` lines 104-156): state,
status line, at least one header, the `Transfer-Encoding` value must be
exactly the string `chunked`, and no `Content-Length` key may be present;
every error occurs before any byte reaches the stream. -/
def completeWriteChunked (w : WriterM) : Except WErr Rendered :=
  if w.state ≠ .bodyWritten ∧ w.state ≠ .headersClosed then
    .error (.invalidState "Cannot complete write in current state")
  else
    match w.statusLine with
    | none => .error (.invalidState "Status line must be set before completing write")
    | some sl =>
      if w.headers = [] then
        .error (.invalidState "At least one header must be set before completing write")
      else if lookupH w.headers (bs "Transfer-Encoding") ≠ some (bs "chunked") then
        .error (.invalidState "Transfer-Encoding chunked header must be set before completing write")
      else if (lookupH w.headers (bs "Content-Length")).isSome then
        .error (.invalidState "Content-Length header must not be set when using chunked transfer encoding")
      else
        .ok ⟨sl, w.headers, w.body⟩

/-- The framing decision record (`ChunkedDecision`). -/
structure ChunkedDecision where
  use_chunked : Bool
  use_content_length : Bool
  warning : Option String
deriving DecidableEq, Repr

/-- Model of `decide_chunking` (`standard.rs` lines 280-325). -/
def decideChunking (version : HttpVersion) (headers : Headers) : ChunkedDecision :=
  let teHasChunked :=
    ((getHeaderCi headers (bs "Transfer-Encoding")).map
      (fun v => containsTokenCi v (bs "chunked"))).getD false
  let clPresent := (getHeaderCi headers (bs "Content-Length")).isSome
  match version with
  | .http1_0 =>
    if teHasChunked then
      ⟨false, true, some "HTTP/1.0: ignoring Transfer-Encoding: chunked; using Content-Length"⟩
    else
      ⟨false, true, none⟩
  | .http1_1 =>
    if teHasChunked then
      ⟨true, false, if clPresent then some "TE present, drop Content-Length" else none⟩
    else
      ⟨false, true, none⟩

/-- The non-chunked, non-empty tokens of a `Transfer-Encoding` value, in
their original order (the filter in `send_response`'s chunked branch). -/
def nonChunkedTokens (v : List Nat) : List (List Nat) :=
  ((v.splitOn 44).map trimB).filter
    (fun t => ¬ eqIgnoreCase t (bs "chunked") ∧ t ≠ [])

/-- Comma-space join (`Vec::join(", ")`). -/
def joinComma (tokens : List (List Nat)) : List Nat :=
  List.intercalate (bs ", ") tokens

/-- The header rewrite on the chunked branch of `send_response`: drop every
case-insensitive `Content-Length`, collect the non-chunked tokens of the
(last) case-insensitive `Transfer-Encoding`, copy everything else, then
append `chunked` to the tokens and store them under `Transfer-Encoding`.
`effStep` is the per-header fold step of that rewrite. -/
def effStep (acc : Headers × List (List Nat)) (e : List Nat × List Nat) :
    Headers × List (List Nat) :=
  if eqIgnoreCase e.1 (bs "Content-Length") then acc
  else if eqIgnoreCase e.1 (bs "Transfer-Encoding") then (acc.1, nonChunkedTokens e.2)
  else (insertReplaceExact acc.1 e.1 e.2, acc.2)

def effectiveChunkedHeaders (headers : Headers) : Headers :=
  let step := headers.foldl effStep ([], [])
  insertReplaceExact step.1 (bs "Transfer-Encoding") (joinComma (step.2 ++ [bs "chunked"]))

/-- The body variant (`HttpBody`). -/
inductive HttpBodyM where
  | text (s : List Nat)
  | binary (b : List Nat)
deriving DecidableEq, Repr

/-- The bytes a body contributes (`text.as_bytes()` / the binary bytes);
also `HttpBody::byte_len` is the length of this list. -/
def bodyBytesM : HttpBodyM → List Nat
  | .text s => s
  | .binary b => b

/-- A writable response as consumed by `send_response`: the data returned
by the `HttpWritable` capability set. -/
structure ResponseModel where
  version : HttpVersion
  status : HttpStatusCode
  headers : Headers
  body : HttpBodyM
deriving DecidableEq, Repr

/-- Feeding a header list through `write_header` calls in order. -/
def writeHeadersList (w : WriterM) (hs : Headers) : Except WErr WriterM :=
  hs.foldlM (fun w e => writeHeader w e.1 e.2) w

/-- Model of `send_response` (`standard.rs` lines 186-261): arbitrate the
framing, rewrite headers on the chunked path, skip `Transfer-Encoding`
headers on the Content-Length path, and drive the corresponding writer to
completion.  On success the returned `Rendered` holds exactly what was
written to the stream. -/
def sendResponse (resp : ResponseModel) : Except WErr Rendered :=
  let d := decideChunking resp.version resp.headers
  if d.use_chunked then do
    let w ← writeStatusLine initWriter resp.version resp.status
    let w ← writeHeadersList w (effectiveChunkedHeaders resp.headers)
    let w ← finishHeaders w
    let w ← writeBodyChunked w (bodyBytesM resp.body)
    completeWriteChunked w
  else do
    let w ← writeStatusLine initWriter resp.version resp.status
    let w ← writeHeadersList w
      (resp.headers.filter (fun e => ¬ eqIgnoreCase e.1 (bs "Transfer-Encoding")))
    let w ← finishHeaders w
    let w ← writeBodyStd w (bodyBytesM resp.body)
    completeWriteStd w

end Writer

/-! ## Byte-range file reader (`src/http/files/`) -/

namespace Files

/-- File read errors (`FileReadError` in `src/http/files/types.rs`). -/
inductive FileReadError where
  | notFound
  | permissionDenied
  | rangeNotImplemented
  | ioError
  | invalidRange
deriving DecidableEq, Repr

/-- A requested byte range (`ByteRange`); `end = none` means "to end of
file". -/
structure ByteRange where
  start : Nat
  «end» : Option Nat
deriving DecidableEq, Repr

/-- Result of a file read with metadata (`FileReadResult`). -/
structure FileReadResult where
  body : Writer.HttpBodyM
  total_size : Nat
  range : Option (Nat × Nat)
deriving DecidableEq, Repr

/-- Model of the `FileReadRequest::Range` arm of `read_file_with_range`
(`reader.rs` lines 58-85).  The file on disk is abstracted by its byte
content: `fs::metadata(..).len()` is its length, and the
seek-to-`start`-then-`read_exact` of `end - start + 1` bytes is
`drop start` followed by `take (end - start + 1)` (after the guard, the
file always holds that many bytes, so `read_exact` cannot fail). -/
def readFileRange (file : List Nat) (range : ByteRange) : Except FileReadError FileReadResult :=
  let fileSize := file.length
  if fileSize = 0 then .error .invalidRange
  else
    let start := range.start
    let e := range.«end».getD (fileSize - 1)
    if start > e ∨ e ≥ fileSize then .error .invalidRange
    else
      .ok ⟨.binary ((file.drop start).take (e - start + 1)), fileSize, some (start, e)⟩

/-- The status chosen by `file_handler` for a failed read
(`routes.rs` lines 505-511). -/
def statusForFileError : FileReadError → Writer.HttpStatusCode
  | .notFound => .notFound
  | .ioError => .internalServerError
  | .invalidRange => .badRequest
  | _ => .internalServerError

end Files

/-! ## Compression middleware (`src/http/routes.rs`) -/

namespace Routes

/-- The compression floor `MINIMUM_BODY_SIZE`. -/
def MINIMUM_BODY_SIZE : Nat := 1024

/-- Supported encodings (`HttpEncoding`). -/
inductive HttpEncoding where
  | gzip
  | deflate
  | brotli
  | identity
deriving DecidableEq, Repr

/-- Display of `HttpEncoding` (note: `Brotli` displays as `brotli`). -/
def encodingName : HttpEncoding → List Nat
  | .gzip => bs "gzip"
  | .deflate => bs "deflate"
  | .brotli => bs "brotli"
  | .identity => bs "identity"

/-- Model of `HttpEncoding::from_encoding_string`: lower-cased name match,
`br` is an alias of `brotli`; `identity` is not recognized. -/
def fromEncodingString (s : List Nat) : Option HttpEncoding :=
  let l := lowerBytes s
  if l = bs "gzip" then some .gzip
  else if l = bs "deflate" then some .deflate
  else if l = bs "br" ∨ l = bs "brotli" then some .brotli
  else none

/-- Decimal parse of a quality value, modelling `f32::from_str` on the
simple decimal forms (`digits`, `digits.digits`, `.digits`, an optional
sign) that occur in `q=` parameters; the exact float rounding is
irrelevant to every settled claim, so the value is kept as a rational. -/
def parseDecimal (l : List Nat) : Option ℚ :=
  let (sign, rest) : ℚ × List Nat :=
    match l with
    | 45 :: r => (-1, r)
    | 43 :: r => (1, r)
    | r => (1, r)
  let (intPart, fracPart) : List Nat × List Nat :=
    match rest.splitOn 46 with
    | [i] => (i, [])
    | [i, f] => (i, f)
    | _ => ([60], [])
  if (intPart ≠ [] ∨ fracPart ≠ []) ∧ intPart.all (fun b => 48 ≤ b ∧ b ≤ 57) ∧
      fracPart.all (fun b => 48 ≤ b ∧ b ≤ 57) then
    let iv : ℚ := (intPart.foldl (fun acc b => acc * 10 + (b - 48)) 0 : Nat)
    let fv : ℚ := (fracPart.foldl (fun acc b => acc * 10 + (b - 48)) 0 : Nat)
    some (sign * (iv + fv / ((10 : ℚ) ^ fracPart.length)))
  else none

/-- Stable descending insertion by quality, modelling the stable
`sort_by(|a, b| b.1.partial_cmp(&a.1).unwrap())`. -/
def insertDescQ (x : List Nat × ℚ) : List (List Nat × ℚ) → List (List Nat × ℚ)
  | [] => [x]
  | y :: ys => if x.2 ≥ y.2 then x :: y :: ys else y :: insertDescQ x ys

/-- Stable descending sort by quality. -/
def sortDescQ : List (List Nat × ℚ) → List (List Nat × ℚ)
  | [] => []
  | x :: xs => insertDescQ x (sortDescQ xs)

/-- Model of `HttpEncoding::parse_accept_encoding`: comma-split and trim,
semicolon-split each item, default quality `1.0` (also on an unparsable
`q=`), drop non-positive qualities, stable-sort descending by quality,
then keep the recognized encodings. -/
def parseAcceptEncoding (header : List Nat) : List (HttpEncoding × ℚ) :=
  let items := (header.splitOn 44).map trimB
  let withQ := items.map (fun item =>
    let parts := (item.splitOn 59).map trimB
    match parts with
    | [] => (([] : List Nat), (0 : ℚ))
    | name :: restParts =>
      if name = [] then (([] : List Nat), (0 : ℚ))
      else
        let q : ℚ :=
          match restParts with
          | qp :: _ =>
            if qp.take 2 = bs "q=" then (parseDecimal (qp.drop 2)).getD 1 else 1
          | [] => 1
        (name, q))
  let sortedQ := sortDescQ (withQ.filter (fun e => 0 < e.2))
  sortedQ.foldr
    (fun e acc =>
      match fromEncodingString e.1 with
      | some enc => (enc, e.2) :: acc
      | none => acc)
    []

/-- A response wrapped by the middleware (`CompressedResponse`): the
original writable, the chosen encoding's display name, and the
(possibly) compressed body bytes. -/
structure CompressedResponse where
  original : Writer.ResponseModel
  encoding : List Nat
  compressed_body : List Nat
deriving Repr

/-- Model of `CompressionMiddleware::apply` (`routes.rs` lines 101-136).
The external compressors (`libflate`, `brotli`) are abstracted by the
parameter `compress`; a body below `MINIMUM_BODY_SIZE` bytes
short-circuits to identity before any `Accept-Encoding` parsing. -/
def applyCompression (compress : HttpEncoding → List Nat → List Nat)
    (response : Writer.ResponseModel) (acceptEncoding : Option (List Nat)) :
    CompressedResponse :=
  let body := Writer.bodyBytesM response.body
  if body.length < MINIMUM_BODY_SIZE then
    ⟨response, bs "identity", body⟩
  else
    let encoding :=
      (acceptEncoding.bind (fun h => ((parseAcceptEncoding h).head?).map (·.1))).getD .identity
    let compressed :=
      match encoding with
      | .gzip => compress .gzip body
      | .deflate => compress .deflate body
      | .brotli => compress .brotli body
      | .identity => body
    ⟨response, encodingName encoding, compressed⟩

/-- The `HttpWritable::headers` impl of `CompressedResponse`
(`routes.rs` lines 171-184): remove the exact `Content-Length` key, add
`Content-Encoding` when not identity, set a fresh `Content-Length` to the
compressed size. -/
def CompressedResponse.headersOf (c : CompressedResponse) : Writer.Headers :=
  let hs := c.original.headers.filter (fun e => e.1 ≠ bs "Content-Length")
  let hs :=
    if c.encoding ≠ bs "identity" then
      Writer.insertReplaceExact hs (bs "Content-Encoding") c.encoding
    else hs
  Writer.insertReplaceExact hs (bs "Content-Length") (natBytes c.compressed_body.length)

/-- The `HttpWritable::status_line` impl of `CompressedResponse`: the
original's status line, unchanged. -/
def CompressedResponse.statusLineOf (c : CompressedResponse) :
    Writer.HttpVersion × Writer.HttpStatusCode :=
  (c.original.version, c.original.status)

/-- The `HttpWritable::body` impl of `CompressedResponse`: always the
(possibly compressed) bytes as a binary body. -/
def CompressedResponse.bodyOf (c : CompressedResponse) : Writer.HttpBodyM :=
  .binary c.compressed_body

end Routes

/-! ## Request parser (`src/http/request/`)

Modelled from the spec: the parser itself, `src/http/request/parser.rs`, is
not in the tree — only its types (`request/types.rs`), its error type
(`request/errors.rs`), its callers and a superseded draft
(`src/http/request.rs`) are.  The definitions below follow §4.1 of the
specification, keeping the draft's structure (headers are parsed before
the request line is validated so errors can carry them) where the spec is
silent. -/

namespace Parser

/-- Request methods (`HttpMethod` in `request/types.rs`). -/
inductive HttpMethod where
  | get
  | post
  | put
  | delete
deriving DecidableEq, Repr

/-- A parse error (`ParseError` in `request/errors.rs`): best status to
answer with, version to echo (HTTP/1.1 when unknown), headers parsed so
far. -/
structure ParseErrorM where
  status : Writer.HttpStatusCode
  version : Writer.HttpVersion
  headers : Writer.Headers
deriving DecidableEq, Repr

/-- A parsed request (`HttpRequest`). -/
structure HttpRequestM where
  method : HttpMethod
  path : List Nat
  version : Writer.HttpVersion
  headers : Writer.Headers
  body : Option (List Nat)
deriving DecidableEq, Repr

/-- Position of the first `CRLF CRLF` (`find_boundary`). -/
def findBoundary : List Nat → Option Nat
  | 13 :: 10 :: 13 :: 10 :: _ => some 0
  | _ :: rest => (findBoundary rest).map (· + 1)
  | [] => none

/-- Splitting a byte string at every `CRLF`. -/
def splitCRLF : List Nat → List (List Nat)
  | [] => [[]]
  | 13 :: 10 :: rest => [] :: splitCRLF rest
  | b :: rest =>
    match splitCRLF rest with
    | [] => [[b]]
    | l :: ls => (b :: l) :: ls

/-- Splitting on ASCII whitespace into non-empty tokens
(`str::split_whitespace`). -/
def splitWs (l : List Nat) : List (List Nat) :=
  (l.splitOnP isWsByte).filter (· ≠ [])

/-- Splitting at the first occurrence of a byte (`str::split_once`). -/
def splitAtFirst (sep : Nat) : List Nat → Option (List Nat × List Nat)
  | [] => none
  | b :: rest =>
    if b = sep then some ([], rest)
    else (splitAtFirst sep rest).map (fun p => (b :: p.1, p.2))

/-- Modelled from the spec (§4.1 step 6): each header line splits at the
first `:`, both sides trimmed, inserted into the mapping; a line without
`:` aborts with the headers accumulated so far; empty lines are
skipped. -/
def parseHeaderLines : List (List Nat) → Writer.Headers →
    Except Writer.Headers Writer.Headers
  | [], acc => .ok acc
  | l :: rest, acc =>
    if l = [] then parseHeaderLines rest acc
    else
      match splitAtFirst 58 l with
      | some (k, v) =>
        parseHeaderLines rest (Writer.insertReplaceExact acc (trimB k) (trimB v))
      | none => .error acc

/-- Method token recognition (§4.1 step 3). -/
def parseMethod (t : List Nat) : Option HttpMethod :=
  if t = bs "GET" then some .get
  else if t = bs "POST" then some .post
  else if t = bs "PUT" then some .put
  else if t = bs "DELETE" then some .delete
  else none

/-- Modelled from the spec: `HttpRequest::parse` (§4.1).  Locate the first
`CRLF CRLF` (absent: 400 with empty headers); parse header lines; split
the request line on ASCII whitespace into exactly three tokens (else
400); method in {GET, POST, PUT, DELETE} (else 405); version in
{HTTP/1.0, HTTP/1.1} (else 400); when Content-Length parses to N > 0 the
body is exactly the next N bytes after the boundary, with 400 when fewer
are present; a body is attached iff N > 0.  Errors before the version is
known echo HTTP/1.1. -/
def parse (request : List Nat) : Except ParseErrorM HttpRequestM :=
  if request = [] then .error ⟨.badRequest, .http1_1, []⟩
  else
    match findBoundary request with
    | none => .error ⟨.badRequest, .http1_1, []⟩
    | some i =>
      let headerRegion := request.take i
      let bodyAvail := request.drop (i + 4)
      let lines := splitCRLF headerRegion
      let requestLine := lines.headD []
      match parseHeaderLines lines.tail [] with
      | .error acc => .error ⟨.badRequest, .http1_1, acc⟩
      | .ok headers =>
        match splitWs requestLine with
        | [m, p, v] =>
          match parseMethod m with
          | none => .error ⟨.methodNotAllowed, .http1_1, headers⟩
          | some method =>
            let versionOpt :=
              if v = bs "HTTP/1.0" then some Writer.HttpVersion.http1_0
              else if v = bs "HTTP/1.1" then some Writer.HttpVersion.http1_1
              else none
            match versionOpt with
            | none => .error ⟨.badRequest, .http1_1, headers⟩
            | some version =>
              let n := ((Writer.lookupH headers (bs "Content-Length")).bind parseUsize).getD 0
              if bodyAvail.length < n then .error ⟨.badRequest, version, headers⟩
              else
                .ok ⟨method, p, version, headers,
                     if n > 0 then some (bodyAvail.take n) else none⟩
        | _ => .error ⟨.badRequest, .http1_1, headers⟩

end Parser

/-! ## Concrete instances used by witnesses -/

/-- A filesystem on which canonicalization is the identity and every path
exists: one legitimate behaviour of the abstract filesystem (the shape it
takes when no symlinks are involved and the path exists). -/
def fsId : Server.Fs := ⟨fun p => .ok p, fun _ => true⟩

/-- A server context whose root `/srv` is already canonical. -/
def ctxSrv : Server.ServerContext :=
  ⟨[.rootDir, .normal (bs "srv")], [.rootDir, .normal (bs "srv")]⟩

/-! # Theorems -/

/-! ## Generic lemmas about header maps -/

theorem find?_key_filter_ne (k k' : List Nat) (hne : k' ≠ k) (hs : Writer.Headers) :
    (hs.filter (fun e => e.1 ≠ k)).find? (fun e => e.1 == k') =
      hs.find? (fun e => e.1 == k') := by
  induction hs with
  | nil => rfl
  | cons e rest ih =>
    rw [List.filter_cons]
    by_cases he : e.1 = k
    · rw [if_neg (by simp [he])]
      have h2 : (e.1 == k') = false := beq_eq_false_iff_ne.mpr (by rw [he]; exact Ne.symm hne)
      rw [List.find?_cons]
      simp only [h2]
      exact ih
    · rw [if_pos (by simp [he])]
      by_cases he' : e.1 = k'
      · have h2 : (e.1 == k') = true := beq_iff_eq.mpr he'
        rw [List.find?_cons, List.find?_cons]
        simp only [h2]
      · have h2 : (e.1 == k') = false := beq_eq_false_iff_ne.mpr he'
        rw [List.find?_cons, List.find?_cons]
        simp only [h2]
        exact ih

theorem find?_key_filter_self (k : List Nat) (hs : Writer.Headers) :
    (hs.filter (fun e => e.1 ≠ k)).find? (fun e => e.1 == k) = none := by
  rw [List.find?_eq_none]
  intro x hx
  have := List.of_mem_filter hx
  simp only [decide_eq_true_eq] at this
  simp [this]

theorem lookupH_insertReplaceExact_self (hs : Writer.Headers) (k v : List Nat) :
    Writer.lookupH (Writer.insertReplaceExact hs k v) k = some v := by
  unfold Writer.lookupH Writer.insertReplaceExact
  rw [List.find?_append, find?_key_filter_self]
  simp [List.find?_cons]

theorem lookupH_insertReplaceExact_other (hs : Writer.Headers) (k v k' : List Nat)
    (hne : k' ≠ k) :
    Writer.lookupH (Writer.insertReplaceExact hs k v) k' = Writer.lookupH hs k' := by
  unfold Writer.lookupH Writer.insertReplaceExact
  rw [List.find?_append]
  have h2 : (k == k') = false := beq_eq_false_iff_ne.mpr (Ne.symm hne)
  rw [find?_key_filter_ne k k' hne]
  simp [List.find?_cons, h2]

theorem lookupH_filter_ne (hs : Writer.Headers) (k k' : List Nat) (hne : k' ≠ k) :
    Writer.lookupH (hs.filter (fun e => e.1 ≠ k)) k' = Writer.lookupH hs k' := by
  unfold Writer.lookupH
  rw [find?_key_filter_ne k k' hne]

/-! ## C5: byte-range reads -/

/-- C5: for a range read on a file of size N: N = 0 yields `InvalidRange`;
with `end` resolved to N − 1 when absent, `start > end` or `end ≥ N`
yields `InvalidRange`; otherwise the result is a Binary body of exactly
`end − start + 1` bytes taken from offset `start`, with
`total_size = N` and `range = (start, end)`; and the route layer maps
`InvalidRange` to status 400 (`Bad Request`). -/
theorem readFileRange_spec (file : List Nat) (range : Files.ByteRange) :
    (file.length = 0 → Files.readFileRange file range = .error .invalidRange) ∧
    (∀ e, e = range.«end».getD (file.length - 1) → file.length ≠ 0 →
      (range.start > e ∨ e ≥ file.length →
        Files.readFileRange file range = .error .invalidRange)) ∧
    (∀ e, e = range.«end».getD (file.length - 1) → file.length ≠ 0 →
      range.start ≤ e → e < file.length →
      Files.readFileRange file range =
        .ok ⟨.binary ((file.drop range.start).take (e - range.start + 1)),
             file.length, some (range.start, e)⟩ ∧
      ((file.drop range.start).take (e - range.start + 1)).length
        = e - range.start + 1) ∧
    Files.statusForFileError .invalidRange = .badRequest := by
  refine ⟨?_, ?_, ?_, rfl⟩
  · intro h0
    unfold Files.readFileRange
    simp [h0]
  · intro e he h0 hbad
    unfold Files.readFileRange
    subst he
    rw [if_neg h0, if_pos hbad]
  · intro e he h0 hle hlt
    subst he
    constructor
    · unfold Files.readFileRange
      have hnot : ¬ (range.start > range.«end».getD (file.length - 1) ∨
          range.«end».getD (file.length - 1) ≥ file.length) := by omega
      rw [if_neg h0, if_neg hnot]
    · rw [List.length_take, List.length_drop]
      omega

/-- Witness for C5 at the spec's concrete scenario: a 10-byte file
`0123456789` read with `Range: bytes=2-5` yields the 4 bytes `2345`,
total size 10 and range `(2, 5)`. -/
theorem readFileRange_spec_witness :
    Files.readFileRange (bs "0123456789") ⟨2, some 5⟩ =
      .ok ⟨.binary (bs "2345"), 10, some (2, 5)⟩ ∧
    Files.statusForFileError .invalidRange = .badRequest := by
  have h := readFileRange_spec (bs "0123456789") ⟨2, some 5⟩
  have h3 := (h.2.2.1 5 (by decide) (by decide) (by decide) (by decide)).1
  exact ⟨by rw [h3]; rfl, h.2.2.2⟩

/-! ## C2: Content-Length contract of the standard writer -/

/-- C2: a standard writer in state `HeadersClosed` or `BodyWritten`
completes successfully only when a status line is present, a
`Content-Length` header is present and parses as a non-negative integer,
and that integer equals the byte length of the held body; when (the
status line being present) the declared integer differs from the actual
body length the result is `ContentLengthMismatch{declared, actual}` — an
error, and since every error exit of `complete_write` precedes the first
stream write, no bytes at all reach the stream and no malformed response
is emitted. -/
theorem completeWriteStd_contract (w : Writer.WriterM)
    (hstate : w.state = .headersClosed ∨ w.state = .bodyWritten) :
    (∀ r, Writer.completeWriteStd w = .ok r →
      w.statusLine.isSome ∧
      ∃ clv n, Writer.lookupH w.headers (bs "Content-Length") = some clv ∧
        parseUsize clv = some n ∧ n = (w.body.getD []).length) ∧
    (∀ sl clv n, w.statusLine = some sl →
      Writer.lookupH w.headers (bs "Content-Length") = some clv →
      parseUsize clv = some n → n ≠ (w.body.getD []).length →
      Writer.completeWriteStd w =
        .error (.contentLengthMismatch n (w.body.getD []).length)) := by
  have hst : ¬ (w.state ≠ .bodyWritten ∧ w.state ≠ .headersClosed) := by
    rcases hstate with h | h <;> simp [h]
  constructor
  · intro r hok
    unfold Writer.completeWriteStd at hok
    rw [if_neg hst] at hok
    split at hok
    · cases hok
    case _ sl hsl =>
      split at hok
      case _ clv hcl =>
        split at hok
        · cases hok
        case _ n hp =>
          simp only [] at hok
          split at hok
          · cases hok
          case _ hmm =>
            push_neg at hmm
            exact ⟨by simp [hsl], clv, n, hcl, hp, hmm⟩
      · cases hok
  · intro sl clv n hsl hcl hp hmm
    unfold Writer.completeWriteStd
    rw [if_neg hst]
    split
    case _ hnone => rw [hnone] at hsl; cases hsl
    case _ sl' hsl' =>
      rw [hsl'] at hsl
      cases hsl
      split
      case _ clv' hcl' =>
        rw [hcl'] at hcl
        cases hcl
        split
        case _ hp' => rw [hp'] at hp; cases hp
        case _ n' hp' =>
          rw [hp'] at hp
          cases hp
          simp only []
          rw [if_pos hmm]
      case _ hnone => rw [hnone] at hcl; cases hcl

/-- Witness for C2: a writer in `BodyWritten` state declaring
`Content-Length: 5` while holding the 3-byte body `abc` fails with
`ContentLengthMismatch{declared: 5, actual: 3}`. -/
theorem completeWriteStd_contract_witness :
    Writer.completeWriteStd
      ⟨.bodyWritten, some (bs "HTTP/1.1 200 OK\r\n"),
        [(bs "Content-Length", bs "5")], some (bs "abc")⟩ =
      .error (.contentLengthMismatch 5 3) := by
  have h := (completeWriteStd_contract
    ⟨.bodyWritten, some (bs "HTTP/1.1 200 OK\r\n"),
      [(bs "Content-Length", bs "5")], some (bs "abc")⟩ (Or.inr rfl)).2
      (bs "HTTP/1.1 200 OK\r\n") (bs "5") 5 rfl (by decide) (by decide) (by decide)
  simpa using h

/-! ## C10: exact Transfer-Encoding check of the chunked writer -/

/-- C10: a chunked writer in a completable state (`HeadersClosed` or
`BodyWritten`) completes successfully only when the stored
`Transfer-Encoding` header's value is the exact string `chunked`
(whole-value comparison, not a comma-separated token search) and at least
one header is present; for any other stored `Transfer-Encoding` value —
such as `gzip, chunked` — the result is `InvalidState`, an error, so no
bytes are written to the stream. -/
theorem completeWriteChunked_exact_te (w : Writer.WriterM)
    (hstate : w.state = .headersClosed ∨ w.state = .bodyWritten) :
    (∀ r, Writer.completeWriteChunked w = .ok r →
      w.statusLine.isSome ∧ w.headers ≠ [] ∧
      Writer.lookupH w.headers (bs "Transfer-Encoding") = some (bs "chunked")) ∧
    (∀ v, Writer.lookupH w.headers (bs "Transfer-Encoding") = some v →
      v ≠ bs "chunked" →
      ∃ msg, Writer.completeWriteChunked w = .error (.invalidState msg)) := by
  have hst : ¬ (w.state ≠ .bodyWritten ∧ w.state ≠ .headersClosed) := by
    rcases hstate with h | h <;> simp [h]
  constructor
  · intro r hok
    unfold Writer.completeWriteChunked at hok
    rw [if_neg hst] at hok
    split at hok
    · cases hok
    case _ sl hsl =>
      split at hok
      · cases hok
      split at hok
      · cases hok
      split at hok
      · cases hok
      case _ hne hte hcl =>
        push_neg at hte
        exact ⟨by simp [hsl], hne, hte⟩
  · intro v hv hne
    unfold Writer.completeWriteChunked
    rw [if_neg hst]
    split
    · exact ⟨_, rfl⟩
    case _ sl hsl =>
      split
      · exact ⟨_, rfl⟩
      case _ hheaders =>
        rw [if_pos (by rw [hv]; simpa using hne)]
        exact ⟨_, rfl⟩

/-- Witness for C10: a completable chunked writer whose stored
`Transfer-Encoding` value is `gzip, chunked` is refused with an
`InvalidState` error. -/
theorem completeWriteChunked_exact_te_witness :
    ∃ msg, Writer.completeWriteChunked
      ⟨.bodyWritten, some (bs "HTTP/1.1 200 OK\r\n"),
        [(bs "Transfer-Encoding", bs "gzip, chunked")], some (bs "hi")⟩ =
      .error (.invalidState msg) := by
  exact (completeWriteChunked_exact_te
    ⟨.bodyWritten, some (bs "HTTP/1.1 200 OK\r\n"),
      [(bs "Transfer-Encoding", bs "gzip, chunked")], some (bs "hi")⟩
    (Or.inr rfl)).2 (bs "gzip, chunked") (by decide) (by decide)

/-! ## C9: frame effect of the compression middleware -/

theorem compressedHeaders_lookup (c : Routes.CompressedResponse) :
    Writer.lookupH c.headersOf (bs "Content-Length") =
      some (natBytes c.compressed_body.length) ∧
    (c.encoding ≠ bs "identity" →
      Writer.lookupH c.headersOf (bs "Content-Encoding") = some c.encoding) ∧
    (c.encoding = bs "identity" →
      Writer.lookupH c.headersOf (bs "Content-Encoding") =
        Writer.lookupH c.original.headers (bs "Content-Encoding")) ∧
    (∀ k, k ≠ bs "Content-Length" → k ≠ bs "Content-Encoding" →
      Writer.lookupH c.headersOf k = Writer.lookupH c.original.headers k) := by
  have hCE : bs "Content-Encoding" ≠ bs "Content-Length" := by decide
  unfold Routes.CompressedResponse.headersOf
  refine ⟨?_, ?_, ?_, ?_⟩
  · simp only []
    exact lookupH_insertReplaceExact_self _ _ _
  · intro hid
    simp only []
    rw [lookupH_insertReplaceExact_other _ _ _ _ hCE, if_pos hid]
    exact lookupH_insertReplaceExact_self _ _ _
  · intro hid
    simp only []
    rw [lookupH_insertReplaceExact_other _ _ _ _ hCE, if_neg (by simp [hid])]
    exact lookupH_filter_ne _ _ _ hCE
  · intro k hkCL hkCE
    simp only []
    rw [lookupH_insertReplaceExact_other _ _ _ _ hkCL]
    by_cases hid : c.encoding ≠ bs "identity"
    · rw [if_pos hid, lookupH_insertReplaceExact_other _ _ _ _ hkCE]
      exact lookupH_filter_ne _ _ _ hkCL
    · rw [if_neg hid]
      exact lookupH_filter_ne _ _ _ hkCL

/-- C9: the compression middleware wrapping any writable response: a body
below 1024 bytes forces identity, with the body bytes unchanged and no
`Content-Encoding` added; otherwise the body is replaced by the selected
encoding's compressed bytes; in the rewritten headers the prior exact
`Content-Length` key is gone and a fresh `Content-Length` equal to the
compressed size is set, `Content-Encoding` is present exactly when the
encoding is not identity, every other header is looked up unchanged, and
the status line passes through unchanged. -/
theorem applyCompression_frame (compress : Routes.HttpEncoding → List Nat → List Nat)
    (resp : Writer.ResponseModel) (acc : Option (List Nat)) :
    ∀ body c, body = Writer.bodyBytesM resp.body →
      c = Routes.applyCompression compress resp acc →
      (body.length < 1024 →
        c.encoding = bs "identity" ∧ c.compressed_body = body) ∧
      (1024 ≤ body.length →
        ∃ enc,
          enc = (acc.bind
            (fun h => ((Routes.parseAcceptEncoding h).head?).map (·.1))).getD .identity ∧
          c.encoding = Routes.encodingName enc ∧
          (enc = .identity → c.compressed_body = body) ∧
          (enc ≠ .identity → c.compressed_body = compress enc body)) ∧
      Writer.lookupH c.headersOf (bs "Content-Length") =
        some (natBytes c.compressed_body.length) ∧
      (c.encoding ≠ bs "identity" →
        Writer.lookupH c.headersOf (bs "Content-Encoding") = some c.encoding) ∧
      (c.encoding = bs "identity" →
        Writer.lookupH c.headersOf (bs "Content-Encoding") =
          Writer.lookupH resp.headers (bs "Content-Encoding")) ∧
      (∀ k, k ≠ bs "Content-Length" → k ≠ bs "Content-Encoding" →
        Writer.lookupH c.headersOf k = Writer.lookupH resp.headers k) ∧
      c.statusLineOf = (resp.version, resp.status) ∧
      c.bodyOf = .binary c.compressed_body := by
  intro body c hb hc
  subst hb
  subst hc
  by_cases hlen : (Writer.bodyBytesM resp.body).length < Routes.MINIMUM_BODY_SIZE
  · have hcEq : Routes.applyCompression compress resp acc =
        ⟨resp, bs "identity", Writer.bodyBytesM resp.body⟩ := by
      unfold Routes.applyCompression
      rw [if_pos hlen]
    rw [hcEq]
    have hl := compressedHeaders_lookup ⟨resp, bs "identity", Writer.bodyBytesM resp.body⟩
    refine ⟨fun _ => ⟨rfl, rfl⟩, ?_, hl.1, hl.2.1, hl.2.2.1, hl.2.2.2, rfl, rfl⟩
    intro h
    exact absurd h (by simp only [Routes.MINIMUM_BODY_SIZE] at hlen; omega)
  · have hcEq : Routes.applyCompression compress resp acc =
        ⟨resp,
         Routes.encodingName ((acc.bind
           (fun h => ((Routes.parseAcceptEncoding h).head?).map (·.1))).getD .identity),
         match (acc.bind
           (fun h => ((Routes.parseAcceptEncoding h).head?).map (·.1))).getD .identity with
         | .gzip => compress .gzip (Writer.bodyBytesM resp.body)
         | .deflate => compress .deflate (Writer.bodyBytesM resp.body)
         | .brotli => compress .brotli (Writer.bodyBytesM resp.body)
         | .identity => Writer.bodyBytesM resp.body⟩ := by
      unfold Routes.applyCompression
      rw [if_neg hlen]
    rw [hcEq]
    have hl := compressedHeaders_lookup
      ⟨resp,
       Routes.encodingName ((acc.bind
         (fun h => ((Routes.parseAcceptEncoding h).head?).map (·.1))).getD .identity),
       match (acc.bind
         (fun h => ((Routes.parseAcceptEncoding h).head?).map (·.1))).getD .identity with
       | .gzip => compress .gzip (Writer.bodyBytesM resp.body)
       | .deflate => compress .deflate (Writer.bodyBytesM resp.body)
       | .brotli => compress .brotli (Writer.bodyBytesM resp.body)
       | .identity => Writer.bodyBytesM resp.body⟩
    refine ⟨?_, ?_, hl.1, hl.2.1, hl.2.2.1, hl.2.2.2, rfl, rfl⟩
    · intro h
      exact absurd h (by simp only [Routes.MINIMUM_BODY_SIZE] at hlen; omega)
    · intro _
      refine ⟨_, rfl, rfl, ?_, ?_⟩
      · intro hid
        rw [hid]
      · intro hid
        rcases hEv : (acc.bind
            (fun h => ((Routes.parseAcceptEncoding h).head?).map (·.1))).getD .identity with
          _ | _ | _ | _
        · rw [hEv]
        · rw [hEv]
        · rw [hEv]
        · exact absurd hEv hid

/-- Witness for C9: a 1024-byte body with `Accept-Encoding: gzip` selects
gzip (here the abstract compressor is the identity function), removes and
re-adds `Content-Length` with the compressed size, and adds
`Content-Encoding: gzip`. -/
theorem applyCompression_frame_witness :
    (Routes.applyCompression (fun _ b => b)
        ⟨.http1_1, .ok, [(bs "Content-Type", bs "text/plain")],
         .binary (List.replicate 1024 97)⟩
        (some (bs "gzip"))).encoding = bs "gzip" ∧
    (Routes.applyCompression (fun _ b => b)
        ⟨.http1_1, .ok, [(bs "Content-Type", bs "text/plain")],
         .binary (List.replicate 1024 97)⟩
        (some (bs "gzip"))).compressed_body = List.replicate 1024 97 ∧
    Writer.lookupH
      (Routes.applyCompression (fun _ b => b)
          ⟨.http1_1, .ok, [(bs "Content-Type", bs "text/plain")],
           .binary (List.replicate 1024 97)⟩
          (some (bs "gzip"))).headersOf (bs "Content-Length") =
      some (bs "1024") ∧
    Writer.lookupH
      (Routes.applyCompression (fun _ b => b)
          ⟨.http1_1, .ok, [(bs "Content-Type", bs "text/plain")],
           .binary (List.replicate 1024 97)⟩
          (some (bs "gzip"))).headersOf (bs "Content-Encoding") =
      some (bs "gzip") := by
  have h := applyCompression_frame (fun _ b => b)
    ⟨.http1_1, .ok, [(bs "Content-Type", bs "text/plain")],
     .binary (List.replicate 1024 97)⟩
    (some (bs "gzip")) _ _ rfl rfl
  obtain ⟨enc, hE, henc, -, hnid⟩ := h.2.1 (by
    rw [show Writer.bodyBytesM (.binary (List.replicate 1024 97)) = List.replicate 1024 97
      from rfl, List.length_replicate])
  have hEgzip : enc = .gzip := by rw [hE]; decide
  subst hEgzip
  have hbody : (Routes.applyCompression (fun _ b => b)
      ⟨.http1_1, .ok, [(bs "Content-Type", bs "text/plain")],
       .binary (List.replicate 1024 97)⟩
      (some (bs "gzip"))).compressed_body = List.replicate 1024 97 :=
    hnid (by decide)
  refine ⟨henc, hbody, ?_, ?_⟩
  · have hcl := h.2.2.1
    rw [hbody, List.length_replicate] at hcl
    rw [hcl]
    rfl
  · have hce := h.2.2.2.1 (by rw [henc]; decide)
    rw [henc] at hce
    exact hce

/-! ## C7: body presence and Content-Length (spec-modelled parser) -/

/-- C7 (spec-modelled): for every byte string the parser accepts, the
request's body is present iff the Content-Length value is present and
positive, and a present body is exactly the first N bytes following the
`CRLF CRLF` boundary where N is the Content-Length value; when fewer than
N bytes follow the boundary the parser returns status 400. -/
theorem parse_body_iff_content_length (request : List Nat) :
    (∀ r, Parser.parse request = .ok r →
      (r.body.isSome ↔
        0 < ((Writer.lookupH r.headers (bs "Content-Length")).bind parseUsize).getD 0) ∧
      (∀ b, r.body = some b →
        b.length = ((Writer.lookupH r.headers (bs "Content-Length")).bind parseUsize).getD 0 ∧
        ∃ i, Parser.findBoundary request = some i ∧
          b = (request.drop (i + 4)).take
            (((Writer.lookupH r.headers (bs "Content-Length")).bind parseUsize).getD 0))) ∧
    (∀ i hs m p v method version,
      Parser.findBoundary request = some i →
      Parser.parseHeaderLines (Parser.splitCRLF (request.take i)).tail [] = .ok hs →
      Parser.splitWs ((Parser.splitCRLF (request.take i)).headD []) = [m, p, v] →
      Parser.parseMethod m = some method →
      (if v = bs "HTTP/1.0" then some Writer.HttpVersion.http1_0
       else if v = bs "HTTP/1.1" then some Writer.HttpVersion.http1_1
       else none) = some version →
      (request.drop (i + 4)).length <
        ((Writer.lookupH hs (bs "Content-Length")).bind parseUsize).getD 0 →
      Parser.parse request = .error ⟨.badRequest, version, hs⟩) := by
  constructor
  · intro r hok
    unfold Parser.parse at hok
    split at hok
    · cases hok
    split at hok
    · cases hok
    case _ i hB =>
      simp only [] at hok
      split at hok
      · cases hok
      case _ hs hH =>
        split at hok
        case _ m p v hT =>
          split at hok
          · cases hok
          case _ method hM =>
            split at hok
            · cases hok
            case _ version hV =>
              split at hok
              · cases hok
              case _ hlen =>
                cases hok
                push_neg at hlen
                constructor
                · simp only []
                  by_cases hn :
                      0 < ((Writer.lookupH hs (bs "Content-Length")).bind parseUsize).getD 0
                  · rw [if_pos hn]
                    simp [hn]
                  · rw [if_neg hn]
                    simp [hn]
                · intro b hbEq
                  simp only [] at hbEq ⊢
                  by_cases hn :
                      0 < ((Writer.lookupH hs (bs "Content-Length")).bind parseUsize).getD 0
                  · rw [if_pos hn] at hbEq
                    cases hbEq
                    refine ⟨?_, i, hB, rfl⟩
                    rw [List.length_take]
                    omega
                  · rw [if_neg hn] at hbEq
                    cases hbEq
        · cases hok
  · intro i hs m p v method version hB hH hT hM hV hlen
    have hreq : request ≠ [] := by
      intro h
      rw [h] at hB
      cases hB
    unfold Parser.parse
    rw [if_neg hreq, hB]
    simp only []
    rw [hH]
    simp only []
    rw [hT]
    simp only []
    rw [hM]
    simp only []
    rw [hV]
    simp only []
    rw [if_pos hlen]

/-- Witness for C7: `POST /files/a HTTP/1.1` with `Content-Length: 3` and
body `abc` parses with a 3-byte body equal to the bytes after the
boundary. -/
theorem parse_body_iff_content_length_witness :
    ∃ r, Parser.parse (bs "POST /files/a HTTP/1.1\r\nContent-Length: 3\r\n\r\nabc") = .ok r ∧
      r.body = some (bs "abc") ∧
      (r.body.isSome ↔
        0 < ((Writer.lookupH r.headers (bs "Content-Length")).bind parseUsize).getD 0) := by
  have hok : Parser.parse (bs "POST /files/a HTTP/1.1\r\nContent-Length: 3\r\n\r\nabc") =
      .ok ⟨.post, bs "/files/a", .http1_1,
           [(bs "Content-Length", bs "3")], some (bs "abc")⟩ := by rfl
  have h := (parse_body_iff_content_length
    (bs "POST /files/a HTTP/1.1\r\nContent-Length: 3\r\n\r\nabc")).1 _ hok
  exact ⟨_, hok, rfl, h.1⟩

/-! ## C8: accepted versions (spec-modelled parser) -/

/-- C8 (spec-modelled): for a request whose request line has exactly three
tokens and a supported method (and whose headers parse, with enough body
bytes), the parser accepts version token `HTTP/1.0` as well as
`HTTP/1.1`; any other version token yields a parse error with status 400
carrying the headers accumulated so far. -/
theorem parse_accepts_both_versions (request : List Nat) (i : Nat)
    (hs : Writer.Headers) (m p v : List Nat) (method : Parser.HttpMethod)
    (hB : Parser.findBoundary request = some i)
    (hH : Parser.parseHeaderLines (Parser.splitCRLF (request.take i)).tail [] = .ok hs)
    (hT : Parser.splitWs ((Parser.splitCRLF (request.take i)).headD []) = [m, p, v])
    (hM : Parser.parseMethod m = some method)
    (hN : ((Writer.lookupH hs (bs "Content-Length")).bind parseUsize).getD 0 ≤
      (request.drop (i + 4)).length) :
    (v = bs "HTTP/1.0" → ∃ r, Parser.parse request = .ok r ∧ r.version = .http1_0) ∧
    (v = bs "HTTP/1.1" → ∃ r, Parser.parse request = .ok r ∧ r.version = .http1_1) ∧
    (v ≠ bs "HTTP/1.0" → v ≠ bs "HTTP/1.1" →
      Parser.parse request = .error ⟨.badRequest, .http1_1, hs⟩) := by
  have hreq : request ≠ [] := by
    intro h
    rw [h] at hB
    cases hB
  have hguard : ¬ ((request.drop (i + 4)).length <
      ((Writer.lookupH hs (bs "Content-Length")).bind parseUsize).getD 0) := by omega
  refine ⟨?_, ?_, ?_⟩
  · intro hv
    subst hv
    have hpeq : Parser.parse request =
        .ok ⟨method, p, .http1_0, hs,
          if ((Writer.lookupH hs (bs "Content-Length")).bind parseUsize).getD 0 > 0 then
            some ((request.drop (i + 4)).take
              (((Writer.lookupH hs (bs "Content-Length")).bind parseUsize).getD 0))
          else none⟩ := by
      unfold Parser.parse
      rw [if_neg hreq, hB]
      simp only []
      rw [hH]
      simp only []
      rw [hT]
      simp only []
      rw [hM]
      simp only []
      simp only [if_true]
      rw [if_neg hguard]
    exact ⟨_, hpeq, rfl⟩
  · intro hv
    subst hv
    have hpeq : Parser.parse request =
        .ok ⟨method, p, .http1_1, hs,
          if ((Writer.lookupH hs (bs "Content-Length")).bind parseUsize).getD 0 > 0 then
            some ((request.drop (i + 4)).take
              (((Writer.lookupH hs (bs "Content-Length")).bind parseUsize).getD 0))
          else none⟩ := by
      unfold Parser.parse
      rw [if_neg hreq, hB]
      simp only []
      rw [hH]
      simp only []
      rw [hT]
      simp only []
      rw [hM]
      simp only []
      rw [if_neg (by decide : ¬ bs "HTTP/1.1" = bs "HTTP/1.0")]
      simp only [if_true]
      rw [if_neg hguard]
    exact ⟨_, hpeq, rfl⟩
  · intro hv0 hv1
    unfold Parser.parse
    rw [if_neg hreq, hB]
    simp only []
    rw [hH]
    simp only []
    rw [hT]
    simp only []
    rw [hM]
    simp only []
    rw [if_neg hv0, if_neg hv1]

/-- Witness for C8: `GET / HTTP/1.0` is accepted with version HTTP/1.0. -/
theorem parse_accepts_both_versions_witness :
    ∃ r, Parser.parse (bs "GET / HTTP/1.0\r\nHost: x\r\n\r\n") = .ok r ∧
      r.version = .http1_0 := by
  exact (parse_accepts_both_versions (bs "GET / HTTP/1.0\r\nHost: x\r\n\r\n") 23
    [(bs "Host", bs "x")] (bs "GET") (bs "/") (bs "HTTP/1.0") .get
    (by rfl) (by rfl) (by rfl) (by rfl) (by rfl)).1 rfl

/-! ## C4: dot-segment rejection (corrected) -/

/-- Counterexample to C4 as stated: the path `a/./b` percent-decodes to
itself and contains a `.` segment, yet `resolve_path` does not return
`Forbidden`: Rust's `Path::components` normalizes the interior `.` away,
so on a filesystem where the target exists the resolution succeeds.
Moreover `?/..` contains a `..` segment but is rejected as `Invalid` (by
the earlier Windows-character check), not `Forbidden`. -/
theorem resolve_dot_segment_counterexample :
    (bs ".") ∈ Server.rawSegs (bs "a/./b") ∧
    Server.percentDecode (bs "a/./b") = some (bs "a/./b") ∧
    Server.resolvePath fsId ctxSrv (bs "a/./b") .Read =
      .ok ⟨[.rootDir, .normal (bs "srv"), .normal (bs "a"), .normal (bs "b")], true⟩ ∧
    Server.resolvePath fsId ctxSrv (bs "a/./b") .Read ≠ .error .Forbidden ∧
    (bs "..") ∈ Server.rawSegs (bs "?/..") ∧
    Server.resolvePath fsId ctxSrv (bs "?/..") .Read = .error .Invalid := by
  have heq : Server.resolvePath fsId ctxSrv (bs "a/./b") .Read =
      .ok ⟨[.rootDir, .normal (bs "srv"), .normal (bs "a"), .normal (bs "b")], true⟩ := by
    rfl
  refine ⟨by decide, by rfl, heq, ?_, by decide, by rfl⟩
  intro h
  exact Except.noConfusion (heq.symm.trans h)

theorem parentDir_mem_normSegs {segs : List (List Nat)} (hmem : (bs "..") ∈ segs) :
    Server.PathComp.parentDir ∈ Server.normSegs segs := by
  unfold Server.normSegs
  have h1 : (bs "..") ∈ segs.filter (· ≠ [46]) :=
    List.mem_filter.mpr ⟨hmem, by decide⟩
  have h2 := List.mem_map_of_mem
    (fun s => if s = [46, 46] then Server.PathComp.parentDir else Server.PathComp.normal s) h1
  simp only [] at h2
  rw [if_pos (show bs ".." = [46, 46] from rfl)] at h2
  exact h2

theorem componentsOf_any_dot (d : List Nat)
    (hseg : (bs "..") ∈ Server.rawSegs d ∨ (Server.rawSegs d).head? = some (bs ".")) :
    (Server.componentsOf d).any (fun c => c = Server.PathComp.rootDir) = true ∨
    (Server.componentsOf d).any
      (fun c => c = Server.PathComp.curDir ∨ c = Server.PathComp.parentDir) = true := by
  unfold Server.componentsOf
  by_cases hhead : d.head? = some 47
  · rw [if_pos hhead]
    left
    simp
  · rw [if_neg hhead]
    right
    rcases hrs : Server.rawSegs d with _ | ⟨s, rest⟩
    · rw [hrs] at hseg
      rcases hseg with h | h
      · cases h
      · cases h
    · rw [hrs] at hseg
      simp only []
      by_cases hsDot : s = [46]
      · rw [if_pos hsDot]
        simp
      · rw [if_neg hsDot]
        have hmem : (bs "..") ∈ s :: rest := by
          rcases hseg with h | h
          · exact h
          · simp only [List.head?_cons, Option.some_inj] at h
            exact absurd h hsDot
        have hp := parentDir_mem_normSegs hmem
        rw [List.any_eq_true]
        exact ⟨_, hp, by decide⟩

/-- C4 (amended): for every request path that percent-decodes successfully
and whose decoded form passes the preceding character checks (no ASCII
control characters, none of the Windows-invalid characters), if the
decoded form contains a `..` segment anywhere, or a `.` segment in
leading position, then `resolve_path` returns `Forbidden` for both Read
and Write intents, on every filesystem — so the rejection precedes any
filesystem access.  (As the counterexample shows, interior `.` segments
are normalized away by path parsing and are not rejected, and paths
failing the earlier character checks are rejected as `Invalid` rather
than `Forbidden`.) -/
theorem resolve_dot_segments_amended (fs : Server.Fs) (ctx : Server.ServerContext)
    (p d : List Nat) (intent : Server.AccessIntent)
    (hd : Server.percentDecode p = some d)
    (hctl : d.any Server.isCtlByte = false)
    (hwin : d.any Server.isWinInvalid = false)
    (hseg : (bs "..") ∈ Server.rawSegs d ∨ (Server.rawSegs d).head? = some (bs ".")) :
    Server.resolvePath fs ctx p intent = .error .Forbidden := by
  have hne : d ≠ [] := by
    intro h
    subst h
    rcases hseg with h | h
    · cases h
    · cases h
  have hsyn : Server.syntacticResolve p = .error .Forbidden := by
    unfold Server.syntacticResolve
    rw [hd]
    simp only []
    rw [if_neg hne, hctl, hwin]
    rw [if_neg Bool.false_ne_true, if_neg Bool.false_ne_true]
    rcases componentsOf_any_dot d hseg with hroot | hdot
    · rw [if_pos hroot]
    · by_cases hroot : (Server.componentsOf d).any (fun c => c = Server.PathComp.rootDir) = true
      · rw [if_pos hroot]
      · rw [if_neg hroot, if_pos hdot]
  unfold Server.resolvePath
  rw [hsyn]

/-- Witness for the amended C4: `a/../b` passes the character checks and
contains a `..` segment, so resolution is `Forbidden` on every
filesystem (here `fsId`), for Read intent. -/
theorem resolve_dot_segments_amended_witness :
    Server.resolvePath fsId ctxSrv (bs "a/../b") .Read = .error .Forbidden :=
  resolve_dot_segments_amended fsId ctxSrv (bs "a/../b") (bs "a/../b") .Read
    (by rfl) (by rfl) (by rfl) (Or.inl (by decide))

/-! ## C1: sandbox containment -/

/-- C1: whenever the sandbox accepts a path: with Read intent the returned
path is the canonicalized candidate and starts with the canonical root as
a component-wise path prefix; with Write intent the returned path is the
canonicalized parent joined with the original last name, where the
canonicalized parent starts with the canonical root; and a candidate
(resp. parent) whose canonical form does not start with the canonical
root is rejected with `Forbidden`.  The filesystem `fs` is universally
quantified, so this holds regardless of symlink behaviour. -/
theorem resolvePath_sandbox (fs : Server.Fs) (ctx : Server.ServerContext) (p : List Nat) :
    (∀ res, Server.resolvePath fs ctx p .Read = .ok res →
      ∃ d name, Server.syntacticResolve p = .ok (d, name) ∧
        fs.canonicalize (Server.candidateOf ctx d) = .ok res.path ∧
        ctx.canonPath.isPrefixOf res.path = true ∧ res.exists = true) ∧
    (∀ res, Server.resolvePath fs ctx p .Write = .ok res →
      ∃ d name cp, Server.syntacticResolve p = .ok (d, name) ∧
        fs.canonicalize ((Server.candidateOf ctx d).dropLast) = .ok cp ∧
        ctx.canonPath.isPrefixOf cp = true ∧
        res.path = cp ++ [.normal name] ∧
        res.exists = fs.pathExists (Server.candidateOf ctx d)) ∧
    (∀ d name cc, Server.syntacticResolve p = .ok (d, name) →
      fs.canonicalize (Server.candidateOf ctx d) = .ok cc →
      ctx.canonPath.isPrefixOf cc = false →
      Server.resolvePath fs ctx p .Read = .error .Forbidden) ∧
    (∀ d name cp, Server.syntacticResolve p = .ok (d, name) →
      fs.canonicalize ((Server.candidateOf ctx d).dropLast) = .ok cp →
      ctx.canonPath.isPrefixOf cp = false →
      Server.resolvePath fs ctx p .Write = .error .Forbidden) := by
  refine ⟨?_, ?_, ?_, ?_⟩
  · intro res hok
    unfold Server.resolvePath at hok
    split at hok
    · cases hok
    case _ decoded lastName hsyn =>
      simp only [] at hok
      split at hok
      · cases hok
      · cases hok
      case _ cc hcanon =>
        split at hok
        · cases hok
        case _ hpf =>
          cases hok
          push_neg at hpf
          exact ⟨decoded, lastName, hsyn, hcanon, hpf, rfl⟩
  · intro res hok
    unfold Server.resolvePath at hok
    split at hok
    · cases hok
    case _ decoded lastName hsyn =>
      simp only [] at hok
      split at hok
      · cases hok
      · cases hok
      case _ cp hcanon =>
        split at hok
        · cases hok
        case _ hpf =>
          cases hok
          push_neg at hpf
          exact ⟨decoded, lastName, cp, hsyn, hcanon, hpf, rfl, rfl⟩
  · intro d name cc hsyn hcanon hpf
    unfold Server.resolvePath
    rw [hsyn]
    simp only []
    rw [hcanon]
    simp only []
    rw [if_pos (by simp [hpf])]
  · intro d name cp hsyn hcanon hpf
    unfold Server.resolvePath
    rw [hsyn]
    simp only []
    rw [hcanon]
    simp only []
    rw [if_pos (by simp [hpf])]

/-- Witness for C1: under root `/srv` with an identity-canonicalizing
filesystem, reading `file.txt` returns the canonical candidate
`/srv/file.txt`, which starts with the canonical root. -/
theorem resolvePath_sandbox_witness :
    Server.resolvePath fsId ctxSrv (bs "file.txt") .Read =
      .ok ⟨[.rootDir, .normal (bs "srv"), .normal (bs "file.txt")], true⟩ ∧
    ∃ d name, Server.syntacticResolve (bs "file.txt") = .ok (d, name) ∧
      fsId.canonicalize (Server.candidateOf ctxSrv d) =
        .ok ([.rootDir, .normal (bs "srv"), .normal (bs "file.txt")] : Server.Path) ∧
      ctxSrv.canonPath.isPrefixOf
        ([.rootDir, .normal (bs "srv"), .normal (bs "file.txt")] : Server.Path) = true := by
  have heq : Server.resolvePath fsId ctxSrv (bs "file.txt") .Read =
      .ok ⟨[.rootDir, .normal (bs "srv"), .normal (bs "file.txt")], true⟩ := by rfl
  refine ⟨heq, ?_⟩
  obtain ⟨d, name, hsyn, hcanon, hpf, -⟩ :=
    (resolvePath_sandbox fsId ctxSrv (bs "file.txt")).1 _ heq
  exact ⟨d, name, hsyn, hcanon, hpf⟩

/-! ## C6: the framing arbiter -/

theorem ci_te_not_cl (x : List Nat)
    (h : eqIgnoreCase x (bs "Transfer-Encoding") = true) :
    eqIgnoreCase x (bs "Content-Length") = false := by
  unfold eqIgnoreCase at *
  have hx : lowerBytes x = lowerBytes (bs "Transfer-Encoding") := by simpa using h
  rw [hx]
  decide

theorem filter_len_le_one_eq {α : Type} {l : List α} {p : α → Bool} {x y : α}
    (hx : x ∈ l.filter p) (hy : y ∈ l.filter p) (hlen : (l.filter p).length ≤ 1) :
    x = y := by
  rcases h : l.filter p with _ | ⟨z, rest⟩
  · rw [h] at hx
    cases hx
  · rw [h] at hx hy hlen
    have : rest = [] := by
      have := List.length_cons z rest ▸ hlen
      exact List.eq_nil_of_length_eq_zero (by omega)
    subst this
    rcases List.mem_singleton.mp hx with rfl
    rcases List.mem_singleton.mp hy with rfl
    rfl

theorem te_chunked_iff (headers : Writer.Headers)
    (huniq : (headers.filter
      (fun e => eqIgnoreCase e.1 (bs "Transfer-Encoding"))).length ≤ 1) :
    (((Writer.getHeaderCi headers (bs "Transfer-Encoding")).map
      (fun v => Writer.containsTokenCi v (bs "chunked"))).getD false = true) ↔
    ∃ e ∈ headers, eqIgnoreCase e.1 (bs "Transfer-Encoding") = true ∧
      Writer.containsTokenCi e.2 (bs "chunked") = true := by
  constructor
  · intro h
    rcases hg : Writer.getHeaderCi headers (bs "Transfer-Encoding") with _ | v
    · rw [hg] at h
      cases h
    · rw [hg] at h
      simp only [Option.map_some', Option.getD_some] at h
      unfold Writer.getHeaderCi at hg
      rcases Option.map_eq_some'.mp hg with ⟨e, hfind, hv⟩
      have hpe := List.find?_some hfind
      exact ⟨e, List.mem_of_find?_eq_some hfind, hpe, hv ▸ h⟩
  · rintro ⟨e, he, hci, htok⟩
    rcases hfind : headers.find? (fun e => eqIgnoreCase e.1 (bs "Transfer-Encoding")) with _ | e'
    · exfalso
      exact absurd hci (by simpa using (List.find?_eq_none.mp hfind e he))
    · have hpe' := List.find?_some hfind
      have he'mem : e' ∈ headers.filter (fun e => eqIgnoreCase e.1 (bs "Transfer-Encoding")) :=
        List.mem_filter.mpr ⟨List.mem_of_find?_eq_some hfind, hpe'⟩
      have hemem : e ∈ headers.filter (fun e => eqIgnoreCase e.1 (bs "Transfer-Encoding")) :=
        List.mem_filter.mpr ⟨he, hci⟩
      have : e' = e := filter_len_le_one_eq he'mem hemem huniq
      subst this
      unfold Writer.getHeaderCi
      rw [hfind]
      simpa using htok

theorem effFold_acc_not_cl (l : Writer.Headers) :
    ∀ (acc : Writer.Headers × List (List Nat)),
    (∀ e ∈ acc.1, eqIgnoreCase e.1 (bs "Content-Length") = false) →
    ∀ e ∈ (l.foldl Writer.effStep acc).1,
      eqIgnoreCase e.1 (bs "Content-Length") = false := by
  induction l with
  | nil =>
    intro acc hacc
    simpa using hacc
  | cons x l ih =>
    intro acc hacc
    rw [List.foldl_cons]
    apply ih
    unfold Writer.effStep
    by_cases h1 : eqIgnoreCase x.1 (bs "Content-Length") = true
    · rw [if_pos h1]
      exact hacc
    · rw [if_neg h1]
      by_cases h2 : eqIgnoreCase x.1 (bs "Transfer-Encoding") = true
      · rw [if_pos h2]
        exact hacc
      · rw [if_neg h2]
        intro e he
        unfold Writer.insertReplaceExact at he
        rcases List.mem_append.mp he with h | h
        · exact hacc e (List.mem_of_mem_filter h)
        · rcases List.mem_singleton.mp h with rfl
          simpa using h1

theorem effFold_tokens (l : Writer.Headers) :
    ∀ (acc : Writer.Headers × List (List Nat)),
    (Writer.getHeaderCi l (bs "Transfer-Encoding") = none →
      (l.foldl Writer.effStep acc).2 = acc.2) ∧
    (∀ v0, Writer.getHeaderCi l (bs "Transfer-Encoding") = some v0 →
      (l.filter (fun e => eqIgnoreCase e.1 (bs "Transfer-Encoding"))).length ≤ 1 →
      (l.foldl Writer.effStep acc).2 = Writer.nonChunkedTokens v0) := by
  induction l with
  | nil =>
    intro acc
    constructor
    · intro _
      rfl
    · intro v0 h
      simp [Writer.getHeaderCi] at h
  | cons x l ih =>
    intro acc
    by_cases hfx : eqIgnoreCase x.1 (bs "Transfer-Encoding") = true
    · have hget : Writer.getHeaderCi (x :: l) (bs "Transfer-Encoding") = some x.2 := by
        unfold Writer.getHeaderCi
        rw [List.find?_cons]
        simp only [hfx]
        rfl
      constructor
      · intro hnone
        rw [hget] at hnone
        cases hnone
      · intro v0 hsome hun
        rw [hget] at hsome
        injection hsome with hv
        subst hv
        have hcl : eqIgnoreCase x.1 (bs "Content-Length") = false := ci_te_not_cl _ hfx
        rw [List.foldl_cons]
        have hstepx : Writer.effStep acc x = (acc.1, Writer.nonChunkedTokens x.2) := by
          unfold Writer.effStep
          rw [if_neg (by simp [hcl]), if_pos hfx]
        rw [hstepx]
        have hlnil : l.filter (fun e => eqIgnoreCase e.1 (bs "Transfer-Encoding")) = [] := by
          rw [List.filter_cons, if_pos (by simp [hfx])] at hun
          rw [List.length_cons] at hun
          exact List.eq_nil_of_length_eq_zero (by omega)
        have hlnone : Writer.getHeaderCi l (bs "Transfer-Encoding") = none := by
          unfold Writer.getHeaderCi
          rw [Option.map_eq_none', List.find?_eq_none]
          intro a ha
          have := List.filter_eq_nil_iff.mp hlnil a ha
          simpa using this
        exact (ih _).1 hlnone
    · have hfx' : eqIgnoreCase x.1 (bs "Transfer-Encoding") = false := by
        simpa using hfx
      have hget : Writer.getHeaderCi (x :: l) (bs "Transfer-Encoding") =
          Writer.getHeaderCi l (bs "Transfer-Encoding") := by
        unfold Writer.getHeaderCi
        rw [List.find?_cons]
        simp only [hfx']
      have hfilter : (x :: l).filter (fun e => eqIgnoreCase e.1 (bs "Transfer-Encoding")) =
          l.filter (fun e => eqIgnoreCase e.1 (bs "Transfer-Encoding")) := by
        rw [List.filter_cons, if_neg (by simp [hfx'])]
      have hstep2 : (Writer.effStep acc x).2 = acc.2 := by
        unfold Writer.effStep
        by_cases h1 : eqIgnoreCase x.1 (bs "Content-Length") = true
        · rw [if_pos h1]
        · rw [if_neg h1, if_neg (by simp [hfx'])]
      constructor
      · intro hnone
        rw [hget] at hnone
        rw [List.foldl_cons, (ih _).1 hnone, hstep2]
      · intro v0 hsome hun
        rw [hget] at hsome
        rw [hfilter] at hun
        rw [List.foldl_cons]
        exact (ih _).2 v0 hsome hun

theorem effectiveChunkedHeaders_not_cl (headers : Writer.Headers) :
    ∀ e ∈ Writer.effectiveChunkedHeaders headers,
      eqIgnoreCase e.1 (bs "Content-Length") = false := by
  intro e he
  unfold Writer.effectiveChunkedHeaders at he
  simp only [] at he
  unfold Writer.insertReplaceExact at he
  rcases List.mem_append.mp he with h | h
  · exact effFold_acc_not_cl headers ([], []) (by intro e he; cases he) e
      (List.mem_of_mem_filter h)
  · rcases List.mem_singleton.mp h with rfl
    exact (by decide :
      eqIgnoreCase (bs "Transfer-Encoding") (bs "Content-Length") = false)

/-- C6: the framing arbiter uses chunked exactly when the version is
HTTP/1.1 and a case-insensitively named `Transfer-Encoding` header has a
comma-separated token case-insensitively equal to `chunked` (stated for
header maps with at most one `Transfer-Encoding`-named entry, which is
all a `HashMap` ever holds for the names this server writes); HTTP/1.0
always decides Content-Length, warning exactly when chunked was
requested; and the rewritten headers of the chunked path contain no
case-insensitive `Content-Length` and store under `Transfer-Encoding`
the original non-chunked tokens in order followed by `chunked`. -/
theorem decideChunking_spec (version : Writer.HttpVersion) (headers : Writer.Headers)
    (huniq : (headers.filter
      (fun e => eqIgnoreCase e.1 (bs "Transfer-Encoding"))).length ≤ 1) :
    ((Writer.decideChunking version headers).use_chunked = true ↔
      (version = .http1_1 ∧ ∃ e ∈ headers,
        eqIgnoreCase e.1 (bs "Transfer-Encoding") = true ∧
        Writer.containsTokenCi e.2 (bs "chunked") = true)) ∧
    (version = .http1_0 →
      (Writer.decideChunking version headers).use_chunked = false ∧
      (Writer.decideChunking version headers).use_content_length = true ∧
      ((Writer.decideChunking version headers).warning.isSome ↔
        ∃ e ∈ headers, eqIgnoreCase e.1 (bs "Transfer-Encoding") = true ∧
          Writer.containsTokenCi e.2 (bs "chunked") = true)) ∧
    (∀ e ∈ Writer.effectiveChunkedHeaders headers,
      eqIgnoreCase e.1 (bs "Content-Length") = false) ∧
    (∀ v0, Writer.getHeaderCi headers (bs "Transfer-Encoding") = some v0 →
      Writer.lookupH (Writer.effectiveChunkedHeaders headers) (bs "Transfer-Encoding") =
        some (Writer.joinComma (Writer.nonChunkedTokens v0 ++ [bs "chunked"]))) ∧
    (Writer.getHeaderCi headers (bs "Transfer-Encoding") = none →
      Writer.lookupH (Writer.effectiveChunkedHeaders headers) (bs "Transfer-Encoding") =
        some (Writer.joinComma [bs "chunked"])) := by
  have hte_dec := te_chunked_iff headers huniq
  refine ⟨?_, ?_, ?_, ?_, ?_⟩
  · cases version with
    | http1_0 =>
      have huc : (Writer.decideChunking .http1_0 headers).use_chunked = false := by
        unfold Writer.decideChunking
        simp only []
        split
        · rfl
        · rfl
      rw [huc]
      constructor
      · intro h
        cases h
      · rintro ⟨h10, -⟩
        cases h10
    | http1_1 =>
      by_cases hte : ((Writer.getHeaderCi headers (bs "Transfer-Encoding")).map
          (fun v => Writer.containsTokenCi v (bs "chunked"))).getD false = true
      · have huc : (Writer.decideChunking .http1_1 headers).use_chunked = true := by
          unfold Writer.decideChunking
          simp only []
          rw [if_pos hte]
        rw [huc]
        exact ⟨fun _ => ⟨rfl, hte_dec.mp hte⟩, fun _ => rfl⟩
      · have huc : (Writer.decideChunking .http1_1 headers).use_chunked = false := by
          unfold Writer.decideChunking
          simp only []
          rw [if_neg hte]
        rw [huc]
        constructor
        · intro h
          cases h
        · rintro ⟨-, hex⟩
          exact absurd (hte_dec.mpr hex) hte
  · intro hv
    subst hv
    by_cases hte : ((Writer.getHeaderCi headers (bs "Transfer-Encoding")).map
        (fun v => Writer.containsTokenCi v (bs "chunked"))).getD false = true
    · have hd : Writer.decideChunking .http1_0 headers =
          ⟨false, true,
           some "HTTP/1.0: ignoring Transfer-Encoding: chunked; using Content-Length"⟩ := by
        unfold Writer.decideChunking
        simp only []
        rw [if_pos hte]
      rw [hd]
      exact ⟨rfl, rfl, fun _ => hte_dec.mp hte, fun _ => rfl⟩
    · have hd : Writer.decideChunking .http1_0 headers = ⟨false, true, none⟩ := by
        unfold Writer.decideChunking
        simp only []
        rw [if_neg hte]
      rw [hd]
      refine ⟨rfl, rfl, ?_⟩
      constructor
      · intro h
        simp at h
      · intro hex
        exact absurd (hte_dec.mpr hex) hte
  · exact effectiveChunkedHeaders_not_cl headers
  · intro v0 hv0
    unfold Writer.effectiveChunkedHeaders
    simp only []
    rw [lookupH_insertReplaceExact_self]
    rw [(effFold_tokens headers ([], [])).2 v0 hv0 huniq]
  · intro hnone
    unfold Writer.effectiveChunkedHeaders
    simp only []
    rw [lookupH_insertReplaceExact_self]
    rw [(effFold_tokens headers ([], [])).1 hnone]
    rfl

/-- Witness for C6: on HTTP/1.1 with headers `Transfer-Encoding: chunked`
and `Content-Length: 5`, the arbiter decides chunked, and the rewritten
headers carry `Transfer-Encoding: chunked`. -/
theorem decideChunking_spec_witness :
    (Writer.decideChunking .http1_1
      [(bs "Transfer-Encoding", bs "chunked"),
       (bs "Content-Length", bs "5")]).use_chunked = true ∧
    Writer.lookupH
      (Writer.effectiveChunkedHeaders
        [(bs "Transfer-Encoding", bs "chunked"), (bs "Content-Length", bs "5")])
      (bs "Transfer-Encoding") = some (bs "chunked") := by
  have h := decideChunking_spec .http1_1
    [(bs "Transfer-Encoding", bs "chunked"), (bs "Content-Length", bs "5")]
    (by decide)
  constructor
  · exact h.1.mpr ⟨rfl, (bs "Transfer-Encoding", bs "chunked"),
      by simp, by decide, by decide⟩
  · have h4 := h.2.2.2.1 (bs "chunked") (by rfl)
    rw [h4]
    rfl

/-! ## C3: exactly one framing on the wire -/

theorem exc_bind_ok {ε α β : Type} (a : α) (f : α → Except ε β) :
    ((Except.ok a : Except ε α) >>= f) = f a := rfl

theorem exc_bind_error {ε α β : Type} (e : ε) (f : α → Except ε β) :
    ((Except.error e : Except ε α) >>= f) = .error e := rfl

theorem lowerByte_cap (c : Nat) :
    lowerByte (if 97 ≤ c ∧ c ≤ 122 then c - 32 else c) = lowerByte c := by
  unfold lowerByte
  split_ifs <;> omega

theorem lowerBytes_append (a b : List Nat) :
    lowerBytes (a ++ b) = lowerBytes a ++ lowerBytes b :=
  List.map_append _ _ _

theorem lowerBytes_cons (c : Nat) (l : List Nat) :
    lowerBytes (c :: l) = lowerByte c :: lowerBytes l := rfl

theorem lowerBytes_capWord (w : List Nat) :
    lowerBytes (Writer.capWord w) = lowerBytes w := by
  unfold Writer.capWord
  by_cases h : w.any (fun b => 65 ≤ b ∧ b ≤ 90) = true
  · rw [if_pos h]
  · rw [if_neg h]
    cases w with
    | nil => rfl
    | cons c rest =>
      show lowerByte (if 97 ≤ c ∧ c ≤ 122 then c - 32 else c) :: lowerBytes rest
        = lowerByte c :: lowerBytes rest
      rw [lowerByte_cap]

theorem lowerBytes_titlecaseGo (fuel : Nat) :
    ∀ l : List Nat, lowerBytes (Writer.titlecaseGo fuel l) = lowerBytes l := by
  induction fuel with
  | zero => intro l; rfl
  | succ fuel ih =>
    intro l
    cases l with
    | nil => rfl
    | cons b rest =>
      unfold Writer.titlecaseGo
      by_cases hw : Writer.isWordByte b = true
      · rw [if_pos hw, lowerBytes_append, lowerBytes_capWord, ih,
            ← lowerBytes_append, List.cons_append, List.takeWhile_append_dropWhile]
      · rw [if_neg hw, lowerBytes_cons, lowerBytes_cons, ih]

theorem lowerBytes_titlecaseB (l : List Nat) :
    lowerBytes (Writer.titlecaseB l) = lowerBytes l :=
  lowerBytes_titlecaseGo l.length l

theorem eqIgnoreCase_titlecase (k x : List Nat) :
    eqIgnoreCase (Writer.titlecaseB k) x = eqIgnoreCase k x := by
  unfold eqIgnoreCase
  rw [lowerBytes_titlecaseB]

theorem eqIgnoreCase_refl (k : List Nat) : eqIgnoreCase k k = true := by
  unfold eqIgnoreCase
  exact beq_iff_eq.mpr rfl

theorem lookupH_some_mem {hs : Writer.Headers} {k v : List Nat}
    (h : Writer.lookupH hs k = some v) : ∃ e ∈ hs, e.1 = k ∧ e.2 = v := by
  unfold Writer.lookupH at h
  rcases Option.map_eq_some'.mp h with ⟨e, hfind, hv⟩
  have hpe := List.find?_some hfind
  exact ⟨e, List.mem_of_find?_eq_some hfind, beq_iff_eq.mp hpe, hv⟩

theorem writeStatusLine_ok_inv {w w' : Writer.WriterM} {version : Writer.HttpVersion}
    {status : Writer.HttpStatusCode} (h : Writer.writeStatusLine w version status = .ok w') :
    w'.headers = w.headers ∧ w'.body = w.body ∧
    w'.statusLine = some (Writer.statusLineBytes version status) := by
  unfold Writer.writeStatusLine at h
  split at h
  · cases h
  · cases h
    exact ⟨rfl, rfl, rfl⟩

theorem writeHeader_ok_inv {w w' : Writer.WriterM} {k v : List Nat}
    (h : Writer.writeHeader w k v = .ok w') :
    w'.headers = w.headers.filter (fun e => ¬ eqIgnoreCase e.1 k) ++
      [(Writer.titlecaseB k, v)] ∧
    w'.body = w.body ∧ w'.statusLine = w.statusLine := by
  unfold Writer.writeHeader at h
  split at h
  · cases h
  · cases h
    exact ⟨rfl, rfl, rfl⟩

theorem finishHeaders_ok_inv {w w' : Writer.WriterM}
    (h : Writer.finishHeaders w = .ok w') :
    w'.headers = w.headers ∧ w'.body = w.body ∧ w'.statusLine = w.statusLine := by
  unfold Writer.finishHeaders at h
  split at h
  · cases h
  · cases h
    exact ⟨rfl, rfl, rfl⟩

theorem writeBodyStd_ok_inv {w w' : Writer.WriterM} {body : List Nat}
    (h : Writer.writeBodyStd w body = .ok w') :
    w'.headers = w.headers ∧ w'.statusLine = w.statusLine := by
  unfold Writer.writeBodyStd at h
  split at h
  · cases h
  · cases h
    exact ⟨rfl, rfl⟩

theorem writeBodyChunked_ok_inv {w w' : Writer.WriterM} {body : List Nat}
    (h : Writer.writeBodyChunked w body = .ok w') :
    w'.headers = w.headers ∧ w'.statusLine = w.statusLine := by
  unfold Writer.writeBodyChunked at h
  split at h
  · cases h
  · cases h
    exact ⟨rfl, rfl⟩

theorem completeWriteStd_ok_inv {w : Writer.WriterM} {r : Writer.Rendered}
    (h : Writer.completeWriteStd w = .ok r) :
    r.headers = w.headers ∧ (Writer.lookupH w.headers (bs "Content-Length")).isSome := by
  unfold Writer.completeWriteStd at h
  split at h
  · cases h
  split at h
  · cases h
  case _ sl hsl =>
    split at h
    case _ clv hcl =>
      split at h
      · cases h
      case _ n hp =>
        simp only [] at h
        split at h
        · cases h
        · cases h
          exact ⟨rfl, by rw [hcl]; rfl⟩
    · cases h

theorem completeWriteChunked_ok_inv {w : Writer.WriterM} {r : Writer.Rendered}
    (h : Writer.completeWriteChunked w = .ok r) :
    r.headers = w.headers ∧
    Writer.lookupH w.headers (bs "Transfer-Encoding") = some (bs "chunked") ∧
    (Writer.lookupH w.headers (bs "Content-Length")).isSome = false := by
  unfold Writer.completeWriteChunked at h
  split at h
  · cases h
  split at h
  · cases h
  case _ sl hsl =>
    split at h
    · cases h
    split at h
    · cases h
    case _ hne hte =>
      split at h
      · cases h
      case _ hcl =>
        cases h
        push_neg at hte
        exact ⟨rfl, hte, by simpa using hcl⟩

theorem writeHeadersList_headers (hs : Writer.Headers) :
    ∀ w w', Writer.writeHeadersList w hs = .ok w' →
      (∀ e ∈ w'.headers,
        e ∈ w.headers ∨ ∃ kv ∈ hs, e = (Writer.titlecaseB kv.1, kv.2)) ∧
      w'.statusLine = w.statusLine ∧ w'.body = w.body := by
  induction hs with
  | nil =>
    intro w w' h
    unfold Writer.writeHeadersList at h
    rw [List.foldlM_nil] at h
    cases h
    exact ⟨fun e he => Or.inl he, rfl, rfl⟩
  | cons kv hs ih =>
    intro w w' h
    unfold Writer.writeHeadersList at h
    rw [List.foldlM_cons] at h
    rcases h1 : Writer.writeHeader w kv.1 kv.2 with e1 | w1
    · rw [h1, exc_bind_error] at h
      cases h
    · rw [h1, exc_bind_ok] at h
      obtain ⟨hw1h, hw1b, hw1s⟩ := writeHeader_ok_inv h1
      obtain ⟨hent, hsl, hb⟩ := ih w1 w' h
      refine ⟨?_, hsl.trans hw1s, hb.trans hw1b⟩
      intro e he
      rcases hent e he with hmem | ⟨kv', hkv', hekv⟩
      · rw [hw1h] at hmem
        rcases List.mem_append.mp hmem with hm | hm
        · exact Or.inl (List.mem_of_mem_filter hm)
        · rcases List.mem_singleton.mp hm with rfl
          exact Or.inr ⟨kv, List.mem_cons_self kv hs, rfl⟩
      · exact Or.inr ⟨kv', List.mem_cons_of_mem kv hkv', hekv⟩

/-- C3: every response `send_response` actually writes carries exactly one
of a `Content-Length` header and a `Transfer-Encoding` header containing
a `chunked` token: the chunked path's header rewrite removes
Content-Length before writing and the Content-Length path skips every
Transfer-Encoding header; additionally the chunked writer refuses to
complete whenever a `Content-Length` header is present. -/
theorem sendResponse_exactly_one_framing :
    (∀ (resp : Writer.ResponseModel) (r : Writer.Rendered),
      Writer.sendResponse resp = .ok r →
      ((∃ e ∈ r.headers, eqIgnoreCase e.1 (bs "Content-Length") = true) ∧
        ¬ (∃ e ∈ r.headers, eqIgnoreCase e.1 (bs "Transfer-Encoding") = true ∧
          Writer.containsTokenCi e.2 (bs "chunked") = true)) ∨
      ((¬ ∃ e ∈ r.headers, eqIgnoreCase e.1 (bs "Content-Length") = true) ∧
        (∃ e ∈ r.headers, eqIgnoreCase e.1 (bs "Transfer-Encoding") = true ∧
          Writer.containsTokenCi e.2 (bs "chunked") = true))) ∧
    (∀ w : Writer.WriterM, (Writer.lookupH w.headers (bs "Content-Length")).isSome →
      ∀ r, Writer.completeWriteChunked w ≠ .ok r) := by
  constructor
  · intro resp r hok
    unfold Writer.sendResponse at hok
    simp only [] at hok
    by_cases hchunk : (Writer.decideChunking resp.version resp.headers).use_chunked = true
    · rw [if_pos hchunk] at hok
      rcases h1 : Writer.writeStatusLine Writer.initWriter resp.version resp.status with e1 | w1
      · rw [h1, exc_bind_error] at hok
        cases hok
      rw [h1, exc_bind_ok] at hok
      rcases h2 : Writer.writeHeadersList w1 (Writer.effectiveChunkedHeaders resp.headers)
        with e2 | w2
      · rw [h2, exc_bind_error] at hok
        cases hok
      rw [h2, exc_bind_ok] at hok
      rcases h3 : Writer.finishHeaders w2 with e3 | w3
      · rw [h3, exc_bind_error] at hok
        cases hok
      rw [h3, exc_bind_ok] at hok
      rcases h4 : Writer.writeBodyChunked w3 (Writer.bodyBytesM resp.body) with e4 | w4
      · rw [h4, exc_bind_error] at hok
        cases hok
      rw [h4, exc_bind_ok] at hok
      obtain ⟨hrh, hte, -⟩ := completeWriteChunked_ok_inv hok
      obtain ⟨h4h, -⟩ := writeBodyChunked_ok_inv h4
      obtain ⟨h3h, -, -⟩ := finishHeaders_ok_inv h3
      obtain ⟨h1h, -, -⟩ := writeStatusLine_ok_inv h1
      obtain ⟨hent, -, -⟩ := writeHeadersList_headers _ w1 w2 h2
      right
      constructor
      · rintro ⟨e, he, hci⟩
        rw [hrh, h4h, h3h] at he
        rcases hent e he with hmem | ⟨kv, hkv, rfl⟩
        · rw [h1h] at hmem
          cases hmem
        · simp only [] at hci
          rw [eqIgnoreCase_titlecase] at hci
          rw [effectiveChunkedHeaders_not_cl resp.headers kv hkv] at hci
          cases hci
      · rw [← hrh] at hte
        rcases lookupH_some_mem hte with ⟨e, he, he1, he2⟩
        refine ⟨e, he, ?_, ?_⟩
        · rw [he1]
          exact eqIgnoreCase_refl _
        · rw [he2]
          decide
    · rw [if_neg hchunk] at hok
      rcases h1 : Writer.writeStatusLine Writer.initWriter resp.version resp.status with e1 | w1
      · rw [h1, exc_bind_error] at hok
        cases hok
      rw [h1, exc_bind_ok] at hok
      rcases h2 : Writer.writeHeadersList w1
          (resp.headers.filter (fun e => ¬ eqIgnoreCase e.1 (bs "Transfer-Encoding")))
        with e2 | w2
      · rw [h2, exc_bind_error] at hok
        cases hok
      rw [h2, exc_bind_ok] at hok
      rcases h3 : Writer.finishHeaders w2 with e3 | w3
      · rw [h3, exc_bind_error] at hok
        cases hok
      rw [h3, exc_bind_ok] at hok
      rcases h4 : Writer.writeBodyStd w3 (Writer.bodyBytesM resp.body) with e4 | w4
      · rw [h4, exc_bind_error] at hok
        cases hok
      rw [h4, exc_bind_ok] at hok
      obtain ⟨hrh, hcl⟩ := completeWriteStd_ok_inv hok
      obtain ⟨h4h, -⟩ := writeBodyStd_ok_inv h4
      obtain ⟨h3h, -, -⟩ := finishHeaders_ok_inv h3
      obtain ⟨h1h, -, -⟩ := writeStatusLine_ok_inv h1
      obtain ⟨hent, -, -⟩ := writeHeadersList_headers _ w1 w2 h2
      left
      constructor
      · rcases Option.isSome_iff_exists.mp hcl with ⟨clv, hclv⟩
        rcases lookupH_some_mem hclv with ⟨e, he, he1, -⟩
        refine ⟨e, ?_, ?_⟩
        · rw [hrh]
          exact he
        · rw [he1]
          exact eqIgnoreCase_refl _
      · rintro ⟨e, he, hci, -⟩
        rw [hrh, h4h, h3h] at he
        rcases hent e he with hmem | ⟨kv, hkv, rfl⟩
        · rw [h1h] at hmem
          cases hmem
        · simp only [] at hci
          rw [eqIgnoreCase_titlecase] at hci
          have := List.of_mem_filter hkv
          simp only [decide_eq_true_eq, Bool.not_eq_true] at this
          rw [this] at hci
          cases hci
  · intro w hcl r hok
    obtain ⟨-, -, hclno⟩ := completeWriteChunked_ok_inv hok
    rw [hclno] at hcl
    cases hcl

/-- Witness for C3: a concrete HTTP/1.1 response with `Content-Length: 2`
and body `hi` is written with a `Content-Length` header and no
chunked `Transfer-Encoding`. -/
theorem sendResponse_exactly_one_framing_witness :
    ∃ r, Writer.sendResponse
        ⟨.http1_1, .ok,
         [(bs "Content-Type", bs "text/plain"), (bs "Content-Length", bs "2")],
         .text (bs "hi")⟩ = .ok r ∧
      (((∃ e ∈ r.headers, eqIgnoreCase e.1 (bs "Content-Length") = true) ∧
        ¬ (∃ e ∈ r.headers, eqIgnoreCase e.1 (bs "Transfer-Encoding") = true ∧
          Writer.containsTokenCi e.2 (bs "chunked") = true)) ∨
      ((¬ ∃ e ∈ r.headers, eqIgnoreCase e.1 (bs "Content-Length") = true) ∧
        (∃ e ∈ r.headers, eqIgnoreCase e.1 (bs "Transfer-Encoding") = true ∧
          Writer.containsTokenCi e.2 (bs "chunked") = true))) := by
  have heq : Writer.sendResponse
      ⟨.http1_1, .ok,
       [(bs "Content-Type", bs "text/plain"), (bs "Content-Length", bs "2")],
       .text (bs "hi")⟩ =
      .ok ⟨Writer.statusLineBytes .http1_1 .ok,
           [(bs "Content-Type", bs "text/plain"), (bs "Content-Length", bs "2")],
           some (bs "hi")⟩ := by rfl
  exact ⟨_, heq, sendResponse_exactly_one_framing.1 _ _ heq⟩
